import Mathlib

/-!
Verification of the subtitle extraction and frame-time synchronization engine
of the frame-poster repository (src/subtitles.py and src/frame_utils.py).

The Python code is shallowly embedded: strings are `String`/`List Char`,
Python floats are modelled as `ℚ` (exact arithmetic; the engine's timestamp
values are small decimal fractions), fallible code returns `Option`/`Except`,
and a Python exception escaping a function is an `Except.error` carrying a
`PyErr` tag.  The external language detector (langdetect) is passed in as a
function parameter `detect : String → Option String`, where `none` models
`detect` raising.  All recursion is fuel-structural so that every definition
evaluates by kernel reduction on concrete inputs.
-/

attribute [local semireducible] Rat.add Rat.mul Rat.inv Rat.sub

/-! ## Character classes (ASCII, as used by the Python regexes involved) -/

/-- Python regex whitespace class members that are a single ASCII char:
space, tab, newline, carriage return, vertical tab, form feed. -/
def isWS (c : Char) : Bool :=
  c.toNat = 32 || c.toNat = 9 || c.toNat = 10 || c.toNat = 13 ||
    c.toNat = 11 || c.toNat = 12

/-- ASCII decimal digit, the `\d` and `str.isdigit` class. -/
def isAsciiDigit (c : Char) : Bool :=
  48 ≤ c.toNat && c.toNat ≤ 57

/-- ASCII letter, the `[a-zA-Z]` class. -/
def isAsciiAlpha (c : Char) : Bool :=
  (65 ≤ c.toNat && c.toNat ≤ 90) || (97 ≤ c.toNat && c.toNat ≤ 122)

/-- Python regex `\w` word character (ASCII part): letter, digit or underscore. -/
def isWordChar (c : Char) : Bool :=
  isAsciiAlpha c || isAsciiDigit c || c.toNat = 95

/-! ## Python string primitives -/

/-- Python `str.strip()` on the right: drop trailing whitespace. -/
def rstripWS (s : List Char) : List Char :=
  (s.reverse.dropWhile isWS).reverse

/-- Python `str.strip()`: drop leading and trailing whitespace. -/
def stripWS (s : List Char) : List Char :=
  rstripWS (s.dropWhile isWS)

/-- Python `str.split(sep, maxsplit)` for a one-character separator:
split on the first `maxsplit` occurrences of `sep`, the remainder is the
last field. -/
def pySplitN (sep : Char) : Nat → List Char → List (List Char)
  | 0, s => [s]
  | n + 1, s =>
    let pre := s.takeWhile (fun c => c ≠ sep)
    match s.drop pre.length with
    | [] => [s]
    | _ :: rest => pre :: pySplitN sep n rest

/-- Python `str.split(sep)` without a maxsplit: a string of length `n` holds
at most `n` separators, so fuel `n` makes the split exhaustive. -/
def pySplitAll (sep : Char) (s : List Char) : List (List Char) :=
  pySplitN sep s.length s

/-- Python `str.isdigit()` for ASCII content: nonempty and all digits. -/
def isPyDigitStr (l : List Char) : Bool :=
  !l.isEmpty && l.all isAsciiDigit

/-- Value of a digit character. -/
def charDigitVal (c : Char) : Nat := c.toNat - 48

/-- Value of a big-endian digit string. -/
def digitsVal (ds : List Char) : Nat :=
  ds.foldl (fun a c => 10 * a + charDigitVal c) 0

/-- Digit-string part of Python `int(str)`: nonempty all-digit strings only. -/
def digitsToNat (ds : List Char) : Option Nat :=
  if ds ≠ [] ∧ ds.all isAsciiDigit = true then some (digitsVal ds) else none

/-- Python `int(str)`: optional surrounding whitespace, optional sign,
then a nonempty run of digits; anything else raises (here: `none`). -/
def pyInt (s : List Char) : Option Int :=
  match stripWS s with
  | [] => none
  | c :: rest =>
    if c = '+' then (digitsToNat rest).map (fun n => (n : Int))
    else if c = '-' then (digitsToNat rest).map (fun n => -(n : Int))
    else (digitsToNat (c :: rest)).map (fun n => (n : Int))

/-- Python `round()`: round half to even (banker's rounding). -/
def pyRound (q : ℚ) : Int :=
  let f := ⌊q⌋
  let r := q - (f : ℚ)
  if r < 1 / 2 then f
  else if 1 / 2 < r then f + 1
  else if f % 2 = 0 then f else f + 1

/-! ## Cue sanitizer: remove_tags (src/subtitles.py)

The Python regex is
`\{\s*[^}]*\s*\}|\\N|\\[a-zA-Z]+\d*|\\c&H[0-9A-Fa-f]+&`, substituted by a
single space, followed by collapsing whitespace runs (`\s+` → one space) and
stripping the ends. -/

/-- Length of the leftmost regex-alternation match anchored at the head of
`s`, or `none`.  The alternatives, in the pattern's order:
1. `\{\s*[^}]*\s*\}` — a brace block; `[^}]` cannot cross a closing brace,
   so the match runs to the first `}` and exists iff one exists;
2. `\\N` — a literal backslash-N;
3. `\\[a-zA-Z]+\d*` — backslash, letters (greedy), then digits (greedy);
4. `\\c&H[0-9A-Fa-f]+&` — a color code.  This alternative can never fire:
   any position where it matches starts with `\c`, and alternative 3
   already matches there (regex alternation is first-match), so it needs
   no code of its own. -/
def matchAt : List Char → Option Nat
  | [] => none
  | c :: t =>
    if c = '{' then
      let inner := t.takeWhile (fun x => x ≠ '}')
      if inner.length < t.length then some (inner.length + 2) else none
    else if c = '\\' then
      match t with
      | [] => none
      | d :: _ =>
        if d = 'N' then some 2
        else if isAsciiAlpha d then
          let letters := t.takeWhile isAsciiAlpha
          let digits := (t.drop letters.length).takeWhile isAsciiDigit
          some (1 + letters.length + digits.length)
        else none
    else none

/-- One pass of `re.sub(pattern, " ", s)`: leftmost non-overlapping matches,
each replaced by one space.  Fueled; fuel `s.length` always suffices since
every step consumes at least one character. -/
def subTagsAux : Nat → List Char → List Char
  | 0, s => s
  | _ + 1, [] => []
  | fuel + 1, c :: t =>
    match matchAt (c :: t) with
    | some n => ' ' :: subTagsAux fuel ((c :: t).drop n)
    | none => c :: subTagsAux fuel t

/-- re.sub of the tag pattern by a single space. -/
def subTags (s : List Char) : List Char := subTagsAux s.length s

/-- re.sub(`\s+`, " ", s): every maximal whitespace run becomes one space. -/
def collapseWSAux : Nat → List Char → List Char
  | 0, s => s
  | _ + 1, [] => []
  | fuel + 1, c :: t =>
    if isWS c then ' ' :: collapseWSAux fuel (t.dropWhile isWS)
    else c :: collapseWSAux fuel t

/-- re.sub(`\s+`, " ", s), with sufficient fuel. -/
def collapseWS (s : List Char) : List Char := collapseWSAux s.length s

/-- Tag removal, whitespace collapse, strip — the body of remove_tags. -/
def sanitizeChars (s : List Char) : List Char :=
  stripWS (collapseWS (subTags s))

/-- remove_tags from src/subtitles.py: strips ASS/SSA tags and control codes,
collapses whitespace and trims; empty input is returned unchanged (the
Python guard `if not message` — for strings this coincides with running the
pipeline, which maps "" to ""). -/
def remove_tags (message : String) : String :=
  if message = "" then message else String.mk (sanitizeChars message.data)

/-! ## Timestamp codec (src/frame_utils.py) -/

/-- ljust(2, "0") from timestamp_to_seconds: pad the centisecond field on
the right with zeros to width two. -/
def ljustTwo (cc : List Char) : List Char :=
  if cc.length < 2 then cc ++ List.replicate (2 - cc.length) '0' else cc

/-- timestamp_to_seconds from src/frame_utils.py (format `H:MM:SS.CC`):
split on `:` into exactly three fields, split the last on `.` into exactly
two, right-pad the centiseconds to two digits, convert each with `int`,
and return `H*3600 + M*60 + S + CC/100`.  Any failure is caught in the
Python function, which returns None (here: `none`). -/
def timestamp_to_seconds (time_str : String) : Option ℚ :=
  match pySplitAll ':' time_str.data with
  | [h, m, s] =>
    match pySplitAll '.' s with
    | [s1, cc0] =>
      match pyInt h, pyInt m, pyInt s1, pyInt (ljustTwo cc0) with
      | some hh, some mm, some ss, some c =>
        some ((hh : ℚ) * 3600 + (mm : ℚ) * 60 + (ss : ℚ) + (c : ℚ) / 100)
      | _, _, _, _ => none
    | _ => none
  | _ => none

/-- timestamp_to_frame from src/frame_utils.py: parse `H:MM:SS.CC` (no
padding of the centisecond field here), form the total seconds and return
`round(total_seconds * fps)`; parse failures return None. -/
def timestamp_to_frame (timestamp : String) (fps : ℚ) : Option Int :=
  match pySplitAll ':' timestamp.data with
  | [h, m, s] =>
    match pySplitAll '.' s with
    | [s1, cs] =>
      match pyInt h, pyInt m, pyInt s1, pyInt cs with
      | some hh, some mm, some ss, some c =>
        some (pyRound (((hh : ℚ) * 3600 + (mm : ℚ) * 60 + (ss : ℚ) + (c : ℚ) / 100) * fps))
      | _, _, _, _ => none
    | _ => none
  | _ => none

/-- Decimal digit to character. -/
def digitChar : Nat → Char
  | 0 => '0' | 1 => '1' | 2 => '2' | 3 => '3' | 4 => '4'
  | 5 => '5' | 6 => '6' | 7 => '7' | 8 => '8' | _ => '9'

/-- Decimal digits of `n`, big-endian, fueled (any fuel above `n` is enough
since `n / 10 < n` for positive `n`). -/
def natToCharsAux : Nat → Nat → List Char
  | 0, _ => []
  | fuel + 1, n =>
    if n < 10 then [digitChar n]
    else natToCharsAux fuel (n / 10) ++ [digitChar (n % 10)]

/-- Python `str` of a nonnegative integer. -/
def natToChars (n : Nat) : List Char := natToCharsAux (n + 1) n

/-- Python f-string rendering `{z}` of an integer. -/
def intToChars (z : Int) : List Char :=
  if z < 0 then '-' :: natToChars z.natAbs else natToChars z.natAbs

/-- Python f-string rendering `{z:02}`: zero-pad to width two (a negative
one-digit value like -5 already fills the width as "-5"). -/
def padTwo (z : Int) : List Char :=
  if 0 ≤ z ∧ z < 10 then '0' :: intToChars z else intToChars z

/-- The f-string `f"{int(hours)}:{int(minutes):02}:{int(seconds):02}.{centiseconds:02}"`. -/
def formatTimestamp (h m s cc : Int) : String :=
  String.mk (intToChars h ++ ':' :: (padTwo m ++ ':' :: (padTwo s ++ '.' :: padTwo cc)))

/-- Python `divmod` quotient for positive real divisors: `a // d = ⌊a / d⌋`. -/
def divFloor (a d : ℚ) : Int := ⌊a / d⌋

/-- Python `divmod` remainder: `a % d = a - d * (a // d)`. -/
def divRem (a d : ℚ) : ℚ := a - d * (divFloor a d : ℚ)

/-- Decomposition step of frame_to_timestamp before the carry:
`hours, remainder = divmod(total_seconds, 3600)`,
`minutes, seconds = divmod(remainder, 60)`,
`centiseconds = int(round((seconds % 1) * 100))`, `seconds = int(seconds)`
(the truncation of a nonnegative float is its floor). -/
def hmscRaw (total : ℚ) : Int × Int × Int × Int :=
  (divFloor total 3600,
   divFloor (divRem total 3600) 60,
   ⌊divRem (divRem total 3600) 60⌋,
   pyRound ((divRem (divRem total 3600) 60 - (⌊divRem (divRem total 3600) 60⌋ : ℚ)) * 100))

/-- The carry chain of frame_to_timestamp: 100 centiseconds carry into a
second, then 60 seconds into a minute, then 60 minutes into an hour. -/
def carryHMSC : Int × Int × Int × Int → Int × Int × Int × Int
  | (hours, minutes, s, cc) =>
    if cc = 100 then
      if s + 1 = 60 then
        if minutes + 1 = 60 then (hours + 1, 0, 0, 0)
        else (hours, minutes + 1, 0, 0)
      else (hours, minutes, s + 1, 0)
    else (hours, minutes, s, cc)

/-- Arithmetic core of frame_to_timestamp: decompose `frame / fps` into
hours, minutes, seconds and rounded centiseconds, then apply the carry. -/
def frameHMSC (frame : Int) (fps : ℚ) : Int × Int × Int × Int :=
  carryHMSC (hmscRaw ((frame : ℚ) / fps))

/-- Rational value represented by an `H:MM:SS.CC` quadruple. -/
def hmscVal (r : Int × Int × Int × Int) : ℚ :=
  (r.1 : ℚ) * 3600 + (r.2.1 : ℚ) * 60 + (r.2.2.1 : ℚ) + (r.2.2.2 : ℚ) / 100

/-- frame_to_timestamp from src/frame_utils.py: `frame / fps` seconds,
decomposed into `H:MM:SS.CC` with carry on rounding; `fps = 0` raises
ZeroDivisionError, caught by the function, which returns None. -/
def frame_to_timestamp (current_frame : Int) (img_fps : ℚ) : Option String :=
  if img_fps = 0 then none
  else
    let r := frameHMSC current_frame img_fps
    some (formatTimestamp r.1 r.2.1 r.2.2.1 r.2.2.2)

/-! ## Data model -/

/-- Exception tags for Python errors that can escape the embedded code. -/
inductive PyErr where
  | typeError
  | indexError
  | zeroDivisionError
deriving DecidableEq

/-- One subtitle entry, the dict built by the parsers.  ASS entries carry
all metadata fields as strings; SRT entries set them to None. -/
structure Cue where
  Layer : Option String
  Start : Option ℚ
  End : Option ℚ
  Style : Option String
  Actor : Option String
  MarginL : Option String
  MarginR : Option String
  MarginV : Option String
  Effect : Option String
  Text : String
deriving DecidableEq

/-- Parse result for one subtitle file. -/
structure Timeline where
  file_name : String
  language : String
  subtitles : List Cue
deriving DecidableEq

/-- The LANGUAGE_CODES mapping of src/subtitles.py. -/
def LANGUAGE_CODES (code : String) : Option String :=
  if code = "en" then some "English"
  else if code = "pt" then some "Português"
  else if code = "es" then some "Español"
  else if code = "spa" then some "Español"
  else if code = "ja" then some "日本語"
  else if code = "ko" then some "한국어"
  else if code = "zh-cn" then some "简体中文"
  else if code = "zh-tw" then some "繁體中文"
  else if code = "fr" then some "Français"
  else if code = "de" then some "Deutsch"
  else if code = "it" then some "Italiano"
  else if code = "ru" then some "Русский"
  else if code = "tr" then some "Türkçe"
  else if code = "vi" then some "Tiếng Việt"
  else if code = "nl" then some "Nederlands"
  else if code = "uk" then some "Українська"
  else if code = "id" then some "Bahasa Indonesia"
  else if code = "tl" then some "Tagalog"
  else none

/-- Language of a detected code: `LANGUAGE_CODES.get(detect(txt), "Unknown")`
with any exception from `detect` (modelled by `none`) giving "Unknown". -/
def languageOf (detect : String → Option String) (txt : String) : String :=
  match detect txt with
  | some code => (LANGUAGE_CODES code).getD "Unknown"
  | none => "Unknown"

/-! ## File lines -/

/-- Split on newline, accumulator-based. -/
def splitNlAux (acc : List Char) : List Char → List String
  | [] => [String.mk acc.reverse]
  | '\n' :: t => String.mk acc.reverse :: splitNlAux [] t
  | c :: t => splitNlAux (c :: acc) t

/-- Lines of a file as Python's text iteration + `rstrip("\n")` yields them:
split at newlines; a trailing newline does not produce a final empty line;
an empty file has no lines. -/
def fileLines (s : String) : List String :=
  match s.data with
  | [] => []
  | cs =>
    let ls := splitNlAux [] cs
    if ls.getLast? = some "" then ls.dropLast else ls

/-- Decidable equality for `Except`, used to evaluate embedded results. -/
instance {e a : Type} [DecidableEq e] [DecidableEq a] : DecidableEq (Except e a) := fun x y =>
  match x, y with
  | Except.error u, Except.error v =>
    if h : u = v then isTrue (by rw [h]) else isFalse (by intro hc; cases hc; exact h rfl)
  | Except.ok u, Except.ok v =>
    if h : u = v then isTrue (by rw [h]) else isFalse (by intro hc; cases hc; exact h rfl)
  | Except.error _, Except.ok _ => isFalse (by intro hc; cases hc)
  | Except.ok _, Except.error _ => isFalse (by intro hc; cases hc)

/-! ## ASS parser (parse_ass_file, src/subtitles.py) -/

/-- Python `line.startswith("Dialogue:")`. -/
def isDialogueLine (l : String) : Bool :=
  List.isPrefixOf "Dialogue:".data l.data

/-- Python `line.split(",", 9)`, giving at most ten fields. -/
def splitCommaNine (l : String) : List String :=
  (pySplitN ',' 9 l.data).map String.mk

/-- Cue built from the (at least ten) fields of one dialogue line. -/
def assCueOfParts (parts : List String) : Cue :=
  { Layer := some (parts.getD 0 "")
    Start := timestamp_to_seconds (parts.getD 1 "")
    End := timestamp_to_seconds (parts.getD 2 "")
    Style := some (parts.getD 3 "")
    Actor := some (parts.getD 4 "")
    MarginL := some (parts.getD 5 "")
    MarginR := some (parts.getD 6 "")
    MarginV := some (parts.getD 7 "")
    Effect := some (parts.getD 8 "")
    Text := remove_tags (parts.getD 9 "") }

/-- parse_ass_file from src/subtitles.py.  The language-detection join
`" ".join(remove_tags(line.split(",", 9)[9]) for line in dialogues)` runs
before, and outside, the per-line try/except, so a dialogue line with fewer
than ten comma-separated fields raises IndexError out of the function.  When
every dialogue line has ten fields, nothing inside the per-line try can
raise (timestamp_to_seconds catches its own errors and returns None), so
every dialogue line contributes a cue. -/
def parse_ass_file (file_name content : String) (detect : String → Option String) :
    Except PyErr Timeline :=
  let dialogues := (fileLines content).filter isDialogueLine
  if dialogues.any (fun l => (splitCommaNine l).length < 10) then
    Except.error PyErr.indexError
  else
    let dialogues_text :=
      String.intercalate " " (dialogues.map (fun l => remove_tags ((splitCommaNine l).getD 9 "")))
    Except.ok
      { file_name := file_name
        language := languageOf detect dialogues_text
        subtitles := dialogues.map (fun l => assCueOfParts (splitCommaNine l)) }

/-! ## SRT parser (parse_srt_file, src/subtitles.py) -/

/-- Match `\d{2}:\d{2}:\d{2},\d{3}` at the head of the list, returning the
twelve matched characters and the rest. -/
def tsShape : List Char → Option (List Char × List Char)
  | a :: b :: ':' :: c :: d :: ':' :: e :: f :: ',' :: g :: h :: i :: rest =>
    if [a, b, c, d, e, f, g, h, i].all isAsciiDigit then
      some ([a, b, ':', c, d, ':', e, f, ',', g, h, i], rest)
    else none
  | _ => none

/-- The anchored time-range regex
`^(\d{2}:\d{2}:\d{2},\d{3})\s*-->\s*(\d{2}:\d{2}:\d{2},\d{3})$` applied to a
whole line, returning the two captured timestamps. -/
def srtTimeMatch (l : List Char) : Option (String × String) :=
  match tsShape l with
  | none => none
  | some (t1, r1) =>
    match r1.dropWhile isWS with
    | '-' :: '-' :: '>' :: r3 =>
      match tsShape (r3.dropWhile isWS) with
      | some (t2, []) => some (String.mk t1, String.mk t2)
      | _ => none
    | _ => none

/-- The call `timestamp_to_seconds(ts, format="srt")` made by parse_srt_file.
The real timestamp_to_seconds in src/frame_utils.py takes a single
parameter `time_str` and accepts no `format` keyword, so every such call
raises TypeError before the callee's body (and its internal try/except)
can run. -/
def timestamp_to_seconds_srt (_time_str _fmt : String) : Except PyErr ℚ :=
  Except.error PyErr.typeError

/-- Cue built in the (unreachable) success path of the SRT block loop. -/
def srtCueOf (ss ee : ℚ) (text : String) : Cue :=
  { Layer := none
    Start := some ss
    End := some ee
    Style := none
    Actor := none
    MarginL := none
    MarginR := none
    MarginV := none
    Effect := none
    Text := text }

mutual

/-- Top of the while loop of parse_srt_file: skip blank lines, consume an
optional numeric index line (breaking at EOF), then hand over to the
time-line check.  Returns the accumulated cues and collected text lines. -/
def srtLoopAux : Nat → List String → List Cue × List String
  | 0, _ => ([], [])
  | _ + 1, [] => ([], [])
  | fuel + 1, l :: rest =>
    if (stripWS l.data).isEmpty then srtLoopAux fuel rest
    else if isPyDigitStr (stripWS l.data) then srtBodyAux fuel rest
    else srtBodyAux fuel (l :: rest)

/-- Time-line check and block body of parse_srt_file.  A line that does not
match the time regex is skipped (`i += 1; continue`).  On a match, the text
lines up to the next blank line are collected and the two timestamps are
converted — which always raises TypeError (see timestamp_to_seconds_srt),
so the except branch advances one extra line and continues; the success
path that would append a cue is dead code, kept for fidelity. -/
def srtBodyAux : Nat → List String → List Cue × List String
  | 0, _ => ([], [])
  | _ + 1, [] => ([], [])
  | fuel + 1, t :: rest =>
    match srtTimeMatch t.data with
    | none => srtLoopAux fuel rest
    | some (st, en) =>
      let texts := rest.takeWhile (fun x => !(stripWS x.data).isEmpty)
      let after := rest.drop texts.length
      match timestamp_to_seconds_srt st "srt", timestamp_to_seconds_srt en "srt" with
      | Except.ok ss, Except.ok ee =>
        let text := remove_tags (String.mk (stripWS (String.intercalate " " texts).data))
        let after2 :=
          match after with
          | [] => []
          | x :: xs => if (stripWS x.data).isEmpty then xs else x :: xs
        let r := srtLoopAux fuel after2
        (srtCueOf ss ee text :: r.1, texts ++ r.2)
      | _, _ =>
        match after with
        | [] => ([], [])
        | _ :: after2 => srtLoopAux fuel after2

end

/-- parse_srt_file from src/subtitles.py: run the block loop over the
file's lines, then detect the language from the collected raw text lines.
This function never raises: all block-level failures are caught and
skipped. -/
def parse_srt_file (file_name content : String) (detect : String → Option String) : Timeline :=
  let lines := fileLines content
  let r := srtLoopAux (2 * lines.length + 2) lines
  { file_name := file_name
    language := languageOf detect (String.intercalate " " r.2)
    subtitles := r.1 }

/-! ## Cue classification and frame resolution (__ass_format, __srt_format) -/

/-- SIGN_EXPRESSION: `re.search("sign|signs", s, re.IGNORECASE)` — since
"signs" contains "sign", this holds iff "sign" occurs as a case-insensitive
substring. -/
def strContains (needle : List Char) : List Char → Bool
  | [] => needle.isEmpty
  | c :: t => List.isPrefixOf needle (c :: t) || strContains needle t

/-- SIGN_EXPRESSION.search applied to a style or actor string. -/
def signMatch (s : String) : Bool :=
  strContains "sign".data (s.data.map Char.toLower)

/-- Whole-word match of `tok` at the head of `s`: the token is followed by
end-of-string or a non-word character (the trailing `\b`). -/
def wordAt (tok s : List Char) : Bool :=
  List.isPrefixOf tok s &&
    (match s.drop tok.length with
     | [] => true
     | d :: _ => !isWordChar d)

/-- Scan for a whole-word occurrence of `tok`, tracking whether the previous
character was a word character (the leading `\b`). -/
def wordSearchAux (tok : List Char) : Bool → List Char → Bool
  | _, [] => false
  | prevWord, c :: t =>
    (!prevWord && wordAt tok (c :: t)) || wordSearchAux tok (isWordChar c) t

/-- Whole-word search of `tok` in `s`. -/
def wordSearch (tok s : List Char) : Bool := wordSearchAux tok false s

/-- EXPRESSION_MUSIC:
`\blyric(s)?\b|\bsong(s)?\b|\bopening\b|\bending\b|\bop\b|\bed\b`
case-insensitively — a whole-word occurrence of one of the eight tokens. -/
def musicMatch (s : String) : Bool :=
  ["lyric", "lyrics", "song", "songs", "opening", "ending", "op", "ed"].any
    (fun tok => wordSearch tok.data (s.data.map Char.toLower))

/-- Rendering of the active cue inside __ass_format: sign styles/actors wrap
the text in 【 】, music styles/actors wrap it in ♪ ♪ with a trailing
newline, otherwise the text is unchanged; the result is prefixed by the
bracketed language, and an empty final text yields None. -/
def renderAssCue (lang : String) (sub : Cue) : Option String :=
  let style := sub.Style.getD ""
  let actor := sub.Actor.getD ""
  let text0 := sub.Text
  let text :=
    if signMatch style || signMatch actor then "【 " ++ text0 ++ " 】"
    else if musicMatch style || musicMatch actor then "♪ " ++ text0 ++ " ♪\n"
    else text0
  if text = "" then none else some ("[" ++ lang ++ "]\n" ++ text)

/-- The scan loop of __ass_format.  Python's chained comparison
`sub["Start"] <= time <= sub["End"]` evaluates left to right: a None Start
raises TypeError immediately; when `Start <= time` fails the End is never
inspected; a None End raises only when the left half held. -/
def assFormatLoop (t : ℚ) (lang : String) : List Cue → Except PyErr (Option String)
  | [] => Except.ok none
  | sub :: rest =>
    match sub.Start with
    | none => Except.error PyErr.typeError
    | some st =>
      if st ≤ t then
        match sub.End with
        | none => Except.error PyErr.typeError
        | some en =>
          if t ≤ en then Except.ok (renderAssCue lang sub)
          else assFormatLoop t lang rest
      else assFormatLoop t lang rest

/-- __ass_format from src/subtitles.py: `time = frame_number / img_fps`
(ZeroDivisionError when fps is 0), then first source-order cue whose closed
interval contains the time. -/
def assFormat (frame_number : Int) (img_fps : ℚ) (d : Timeline) :
    Except PyErr (Option String) :=
  if img_fps = 0 then Except.error PyErr.zeroDivisionError
  else assFormatLoop ((frame_number : ℚ) / img_fps) d.language d.subtitles

/-- The scan loop of __srt_format: same interval scan, no classification. -/
def srtFormatLoop (t : ℚ) (lang : String) : List Cue → Except PyErr (Option String)
  | [] => Except.ok none
  | sub :: rest =>
    match sub.Start with
    | none => Except.error PyErr.typeError
    | some st =>
      if st ≤ t then
        match sub.End with
        | none => Except.error PyErr.typeError
        | some en =>
          if t ≤ en then
            Except.ok (if sub.Text = "" then none else some ("[" ++ lang ++ "]\n" ++ sub.Text))
          else srtFormatLoop t lang rest
      else srtFormatLoop t lang rest

/-- __srt_format from src/subtitles.py. -/
def srtFormat (frame_number : Int) (img_fps : ℚ) (d : Timeline) :
    Except PyErr (Option String) :=
  if img_fps = 0 then Except.error PyErr.zeroDivisionError
  else srtFormatLoop ((frame_number : ℚ) / img_fps) d.language d.subtitles

/-! ## Entry point (get_subtitle_for_frame, src/subtitles.py) -/

/-- A Python value as far as the entry point's isinstance checks care:
an int, a float, or a string. -/
inductive PyVal where
  | int (n : Int)
  | float (q : ℚ)
  | str (s : String)
deriving DecidableEq

/-- Python `isinstance(v, int)`. -/
def PyVal.isInt : PyVal → Bool
  | .int _ => true
  | _ => false

/-- pathlib `Path.suffix`: the dot plus everything after the last dot of the
name, provided that dot is neither the first nor the last character. -/
def pathSuffix (name : String) : String :=
  let cs := name.data
  let afterRev := cs.reverse.takeWhile (fun c => c ≠ '.')
  if afterRev.length = cs.length then ""
  else
    let i := cs.length - afterRev.length - 1
    if 0 < i ∧ afterRev ≠ [] then String.mk ('.' :: afterRev.reverse) else ""

/-- One iteration of the file loop of get_subtitle_for_frame: dispatch on
the extension (`match subtitle_file.suffix`), parse and format; other
extensions produce no message. -/
def subtitleFragment (frame_number : Int) (image_fps : ℚ)
    (detect : String → Option String) (file : String × String) :
    Except PyErr (Option String) :=
  if pathSuffix file.1 = ".ass" then
    match parse_ass_file file.1 file.2 detect with
    | Except.error e => Except.error e
    | Except.ok tl => assFormat frame_number image_fps tl
  else if pathSuffix file.1 = ".srt" then
    srtFormat frame_number image_fps (parse_srt_file file.1 file.2 detect)
  else Except.ok none

/-- Contribution of one per-file message to the accumulated caption:
`if formatted_message: formatted_messages += formatted_message + "\n\n"`
— a falsy message (None or empty) contributes nothing. -/
def fragPiece : Option String → String
  | some msg => if msg = "" then "" else msg ++ "\n\n"
  | none => ""

/-- Concatenation of a list of strings in order. -/
def concatAll : List String → String
  | [] => ""
  | s :: rest => s ++ concatAll rest

/-- The accumulation loop of get_subtitle_for_frame:
`formatted_messages += formatted_message + "\n\n"` for every truthy
per-file message, left to right; the first exception escapes. -/
def aggregateLoop (frame_number : Int) (image_fps : ℚ)
    (detect : String → Option String) : List (String × String) → Except PyErr String
  | [] => Except.ok ""
  | f :: rest =>
    match subtitleFragment frame_number image_fps detect f with
    | Except.error e => Except.error e
    | Except.ok frag =>
      match aggregateLoop frame_number image_fps detect rest with
      | Except.error e => Except.error e
      | Except.ok acc => Except.ok (fragPiece frag ++ acc)

/-- get_subtitle_for_frame from src/subtitles.py.  The filesystem is
abstracted as `episode_dir`: `none` when `subtitles/{episode:02d}` does not
exist or is not a directory, otherwise the (name, content) listing of its
regular files in enumeration order.  Non-int frame or episode numbers are
logged and yield None; a missing or empty directory yields None; otherwise
the per-file messages are accumulated and an empty accumulation is returned
as None (`return formatted_messages or None`). -/
def get_subtitle_for_frame (frame_number episode_number : PyVal) (image_fps : ℚ)
    (episode_dir : Option (List (String × String)))
    (detect : String → Option String) : Except PyErr (Option String) :=
  match frame_number, episode_number with
  | PyVal.int fn, PyVal.int _ =>
    (match episode_dir with
     | none => Except.ok none
     | some files =>
       if files.isEmpty then Except.ok none
       else
         match aggregateLoop fn image_fps detect files with
         | Except.error e => Except.error e
         | Except.ok msgs => Except.ok (if msgs = "" then none else some msgs))
  | _, _ => Except.ok none

/-! ## Normal-form predicates for the sanitizer

These three Boolean predicates characterize strings on which the remove_tags
pipeline is the identity; they are used to prove the sanitizer idempotent. -/

/-- No opening brace is followed, anywhere later in the string, by a closing
brace (so alternative 1 of the tag regex cannot match at any position). -/
def braceOK : List Char → Bool
  | [] => true
  | c :: t => (if c = '{' then !t.contains '}' else true) && braceOK t

/-- No backslash is immediately followed by an ASCII letter (so alternatives
2 and 3 of the tag regex cannot match at any position). -/
def bsOK : List Char → Bool
  | [] => true
  | [_] => true
  | c :: d :: t => (if c = '\\' then !isAsciiAlpha d else true) && bsOK (d :: t)

/-- Head, when present, is not whitespace. -/
def headNotWS : List Char → Bool
  | [] => true
  | d :: _ => !isWS d

/-- Last character, when present, is not whitespace. -/
def lastNotWS (s : List Char) : Bool := headNotWS s.reverse

/-- Every whitespace character is a single space that is not followed by
more whitespace (so the whitespace-collapsing pass is the identity). -/
def wsOK : List Char → Bool
  | [] => true
  | c :: t => (if isWS c then decide (c = ' ') && headNotWS t else true) && wsOK t

/-! ## Theorems -/

/-- The SRT block loop never accumulates a cue: the (always-raising)
timestamp conversion sends every matched block to the except branch. -/
theorem srtAux_no_cues (fuel : Nat) :
    ∀ lines, (srtLoopAux fuel lines).1 = [] ∧ (srtBodyAux fuel lines).1 = [] := by
  induction fuel with
  | zero => intro lines; exact ⟨rfl, rfl⟩
  | succ n ih =>
    intro lines
    refine ⟨?_, ?_⟩
    · cases lines with
      | nil => rfl
      | cons l rest =>
        show (if (stripWS l.data).isEmpty then srtLoopAux n rest
          else if isPyDigitStr (stripWS l.data) then srtBodyAux n rest
          else srtBodyAux n (l :: rest)).1 = []
        split
        · exact (ih rest).1
        · split
          · exact (ih rest).2
          · exact (ih (l :: rest)).2
    · cases lines with
      | nil => rfl
      | cons t rest =>
        simp only [srtBodyAux, timestamp_to_seconds_srt]
        split
        · exact (ih rest).1
        · split
          · rfl
          · exact (ih _).1

/-- Every Timeline produced by parse_srt_file has an empty cue list. -/
theorem parse_srt_file_subtitles_empty (file_name content : String)
    (detect : String → Option String) :
    (parse_srt_file file_name content detect).subtitles = [] :=
  (srtAux_no_cues _ _).1

/-- C1: the claim states that every well-formed `HH:MM:SS,mmm` block of an
SRT file yields one cue with Format-B seconds.  The code cannot do this:
parse_srt_file calls `timestamp_to_seconds(start_ts, format="srt")`, but
timestamp_to_seconds takes no `format` parameter, so the call raises
TypeError for every block and the except branch skips the block.  Below:
the concrete file "1\n00:00:01,000 --> 00:00:02,000\nHello\n" is
well-formed (its time line matches the SRT time regex), yet its parse holds
no cue at all, and in general no SRT parse ever holds a cue. -/
theorem c1_srt_format_b_code_bug :
    (srtTimeMatch "00:00:01,000 --> 00:00:02,000".data).isSome = true ∧
    (parse_srt_file "e.srt" "1\n00:00:01,000 --> 00:00:02,000\nHello\n"
        (fun _ => none)).subtitles = [] ∧
    ∀ (name content : String) (detect : String → Option String),
      (parse_srt_file name content detect).subtitles = [] :=
  ⟨by decide, by decide, fun _ _ _ => (srtAux_no_cues _ _).1⟩

/-- C2: the claim states that an ASS dialogue line with fewer than ten
fields is skipped and parsing continues.  In the code, the language
detection join `" ".join(remove_tags(line.split(",", 9)[9]) for line in
dialogues)` runs before — and outside — the per-line try/except, so the
first malformed line raises IndexError out of parse_ass_file: a file with
one well-formed cue and one short line yields no Timeline at all. -/
theorem c2_malformed_line_code_bug :
    parse_ass_file "a.ass"
      "Dialogue: 0,0:00:00.00,0:00:02.00,Default,,0,0,0,,Hello\nDialogue: bad"
      (fun _ => none) = Except.error PyErr.indexError := by decide

/-- C3: the claim states get_subtitle_for_frame never raises on malformed
subtitle content.  A missing directory does yield the absent result (third
conjunct, for every argument), but an .ass file containing one malformed
dialogue line makes the entry point raise IndexError (first conjunct),
because parse_ass_file's language-detection join is unguarded. -/
theorem c3_entry_point_raises_code_bug :
    get_subtitle_for_frame (PyVal.int 0) (PyVal.int 1) 2
        (some [("a.ass",
          "Dialogue: 0,0:00:00.00,0:00:02.00,Default,,0,0,0,,Hello\nDialogue: bad")])
        (fun _ => none) = Except.error PyErr.indexError ∧
    (∀ (fn ep : Int) (fps : ℚ) (detect : String → Option String),
      get_subtitle_for_frame (PyVal.int fn) (PyVal.int ep) fps none detect
        = Except.ok none) :=
  ⟨by decide, fun _ _ _ _ => rfl⟩

/-- C4 counterexample: the claim states that any frame/episode input that is
not a non-negative integer makes the entry point fail with an
InvalidArgumentError.  At frame_number = -1 (an int that is not
non-negative) and at frame_number = "x" (not an int at all) the function
raises nothing: it returns a value, the absent result. -/
theorem c4_counterexample :
    get_subtitle_for_frame (PyVal.int (-1)) (PyVal.int 1) 2 none (fun _ => none)
      = Except.ok none ∧
    get_subtitle_for_frame (PyVal.str "x") (PyVal.int 1) 2 none (fun _ => none)
      = Except.ok none := ⟨by decide, by decide⟩

/-- C4 amended: get_subtitle_for_frame validates only that frame_number and
episode_number are ints (negative ints are accepted), and when either is
not an int it logs and returns the absent result None — it raises
nothing. -/
theorem c4_non_int_returns_none (a b : PyVal) (fps : ℚ)
    (dir : Option (List (String × String))) (detect : String → Option String)
    (h : a.isInt = false ∨ b.isInt = false) :
    get_subtitle_for_frame a b fps dir detect = Except.ok none := by
  cases a with
  | int n =>
    cases b with
    | int m => simp [PyVal.isInt] at h
    | float q => rfl
    | str s => rfl
  | float q => rfl
  | str s => rfl

/-- Witness for c4_non_int_returns_none at the concrete non-int input "x". -/
theorem c4_non_int_returns_none_witness :
    ((PyVal.str "x").isInt = false ∨ (PyVal.int 1).isInt = false) ∧
    get_subtitle_for_frame (PyVal.str "x") (PyVal.int 1) 2 none (fun _ => none)
      = Except.ok none :=
  ⟨Or.inl (by decide),
    c4_non_int_returns_none (PyVal.str "x") (PyVal.int 1) 2 none (fun _ => none)
      (Or.inl (by decide))⟩

/-- C5 counterexample: the claim states every cue of a parsed Timeline
satisfies start_seconds ≤ end_seconds, violating entries being dropped.
The parsers never compare the two fields: the dialogue line with Start
0:00:05.00 and End 0:00:01.00 is parsed and kept, with 1 < 5. -/
theorem c5_counterexample :
    parse_ass_file "a.ass" "Dialogue: 0,0:00:05.00,0:00:01.00,Default,,0,0,0,,Hi"
        (fun _ => none)
      = Except.ok
        { file_name := "a.ass", language := "Unknown",
          subtitles := [{ Layer := some "Dialogue: 0", Start := some 5, End := some 1,
                          Style := some "Default", Actor := some "", MarginL := some "0",
                          MarginR := some "0", MarginV := some "0", Effect := some "",
                          Text := "Hi" }] } ∧ (1 : ℚ) < 5 := ⟨by decide, by decide⟩

/-- C5 amended: no start ≤ end invariant is enforced and no entry is ever
dropped for violating it: whenever parse_ass_file succeeds it keeps exactly
one cue per dialogue line (order violators included), and the SRT parser
keeps no cues at all. -/
theorem c5_no_entry_dropped (name content : String) (detect : String → Option String)
    (tl : Timeline) (h : parse_ass_file name content detect = Except.ok tl) :
    tl.subtitles.length = ((fileLines content).filter isDialogueLine).length := by
  simp only [parse_ass_file] at h
  split at h
  · exact absurd h (by simp)
  · cases h
    simp [List.length_map]

/-- Witness for c5_no_entry_dropped at the order-violating concrete file. -/
theorem c5_no_entry_dropped_witness :
    (parse_ass_file "a.ass" "Dialogue: 0,0:00:05.00,0:00:01.00,Default,,0,0,0,,Hi"
        (fun _ => none)
      = Except.ok
        { file_name := "a.ass", language := "Unknown",
          subtitles := [{ Layer := some "Dialogue: 0", Start := some 5, End := some 1,
                          Style := some "Default", Actor := some "", MarginL := some "0",
                          MarginR := some "0", MarginV := some "0", Effect := some "",
                          Text := "Hi" }] }) ∧
    (Timeline.subtitles
        { file_name := "a.ass", language := "Unknown",
          subtitles := [{ Layer := some "Dialogue: 0", Start := some 5, End := some 1,
                          Style := some "Default", Actor := some "", MarginL := some "0",
                          MarginR := some "0", MarginV := some "0", Effect := some "",
                          Text := "Hi" }] }).length
      = ((fileLines "Dialogue: 0,0:00:05.00,0:00:01.00,Default,,0,0,0,,Hi").filter
          isDialogueLine).length :=
  ⟨by decide,
    c5_no_entry_dropped "a.ass" "Dialogue: 0,0:00:05.00,0:00:01.00,Default,,0,0,0,,Hi"
      (fun _ => none) _ (by decide)⟩

/-- Data of an appended string is the appended data. -/
theorem string_data_append (s t : String) : (s ++ t).data = s.data ++ t.data := by
  obtain ⟨a⟩ := s
  obtain ⟨b⟩ := t
  rfl

/-- String append is associative. -/
theorem string_append_assoc (a b c : String) : a ++ b ++ c = a ++ (b ++ c) := by
  obtain ⟨x⟩ := a
  obtain ⟨y⟩ := b
  obtain ⟨z⟩ := c
  exact congrArg String.mk (List.append_assoc x y z)

/-- Appending the empty string on the right is the identity. -/
theorem string_append_empty (s : String) : s ++ "" = s := by
  obtain ⟨x⟩ := s
  exact congrArg String.mk (List.append_nil x)

/-- An append with a nonempty right part is nonempty. -/
theorem string_append_ne_empty_right (s t : String) (h : t ≠ "") : s ++ t ≠ "" := by
  intro hc
  apply h
  have hd : s.data ++ t.data = [] := by
    rw [← string_data_append, hc]
  obtain ⟨x⟩ := t
  have : x = [] := (List.append_eq_nil.mp hd).2
  rw [this]


/-- The resolver loop of __ass_format, on a timeline whose cues all carry
parsed timestamps, returns exactly the first source-order cue whose closed
interval contains the query time, rendered. -/
theorem assFormatLoop_eq_find (t : ℚ) (lang : String) (subs : List Cue)
    (hs : ∀ c ∈ subs, c.Start.isSome = true ∧ c.End.isSome = true) :
    assFormatLoop t lang subs =
      Except.ok ((subs.find? (fun c =>
        decide (c.Start.getD 0 ≤ t) && decide (t ≤ c.End.getD 0))).bind
        (fun c => renderAssCue lang c)) := by
  induction subs with
  | nil => rfl
  | cons sub rest ih =>
    obtain ⟨h1, h2⟩ := hs sub (List.mem_cons_self _ _)
    obtain ⟨st, hst⟩ := Option.isSome_iff_exists.mp h1
    obtain ⟨en, hen⟩ := Option.isSome_iff_exists.mp h2
    have ihr := ih (fun c hc => hs c (List.mem_cons_of_mem _ hc))
    by_cases hle : st ≤ t
    · by_cases hle2 : t ≤ en
      · have hp : (decide (sub.Start.getD 0 ≤ t) && decide (t ≤ sub.End.getD 0)) = true := by
          simp [hst, hen, hle, hle2]
        simp only [List.find?, hp]
        simp only [assFormatLoop, hst, hen, if_pos hle, if_pos hle2, Option.bind]
      · have hp : (decide (sub.Start.getD 0 ≤ t) && decide (t ≤ sub.End.getD 0)) = false := by
          simp [hst, hen, hle2]
        simp only [List.find?, hp]
        simpa only [assFormatLoop, hst, hen, if_pos hle, if_neg hle2] using ihr
    · have hp : (decide (sub.Start.getD 0 ≤ t) && decide (t ≤ sub.End.getD 0)) = false := by
        simp [hst, hen, hle]
      simp only [List.find?, hp]
      simpa only [assFormatLoop, hst, hen, if_neg hle] using ihr

/-- C6: for fps > 0 and a timeline of fully-parsed cues, __ass_format
computes t = frame_number / fps and returns the first cue in source order
whose interval contains t, both bounds inclusive (the find? predicate is
start ≤ t ∧ t ≤ end), rendered; when several windows contain t the earliest
in source order wins, since find? takes the first match. -/
theorem c6_frame_resolver (frame : Int) (fps : ℚ) (tl : Timeline)
    (hf : 0 < fps)
    (hs : ∀ c ∈ tl.subtitles, c.Start.isSome = true ∧ c.End.isSome = true) :
    assFormat frame fps tl =
      Except.ok ((tl.subtitles.find? (fun c =>
        decide (c.Start.getD 0 ≤ (frame : ℚ) / fps) &&
          decide ((frame : ℚ) / fps ≤ c.End.getD 0))).bind
        (fun c => renderAssCue tl.language c)) := by
  have hf0 : fps ≠ 0 := ne_of_gt hf
  simp only [assFormat, if_neg hf0]
  exact assFormatLoop_eq_find _ _ _ hs

/-- Witness for c6_frame_resolver: the boundary cue start=2, end=4 is
resolved (and active) at exactly t = 2 and t = 4. -/
theorem c6_frame_resolver_witness :
    (0 : ℚ) < 1 ∧
    (∀ c ∈ (⟨"f", "L", [⟨none, some 2, some 4, none, none, none, none, none, none, "B"⟩]⟩
        : Timeline).subtitles, c.Start.isSome = true ∧ c.End.isSome = true) ∧
    assFormat 2 1 ⟨"f", "L", [⟨none, some 2, some 4, none, none, none, none, none, none, "B"⟩]⟩
      = Except.ok (((⟨"f", "L",
          [⟨none, some 2, some 4, none, none, none, none, none, none, "B"⟩]⟩
            : Timeline).subtitles.find?
            (fun c => decide (c.Start.getD 0 ≤ ((2 : Int) : ℚ) / 1) &&
              decide (((2 : Int) : ℚ) / 1 ≤ c.End.getD 0))).bind
          (fun c => renderAssCue "L" c)) ∧
    assFormat 4 1 ⟨"f", "L", [⟨none, some 2, some 4, none, none, none, none, none, none, "B"⟩]⟩
      = Except.ok (((⟨"f", "L",
          [⟨none, some 2, some 4, none, none, none, none, none, none, "B"⟩]⟩
            : Timeline).subtitles.find?
            (fun c => decide (c.Start.getD 0 ≤ ((4 : Int) : ℚ) / 1) &&
              decide (((4 : Int) : ℚ) / 1 ≤ c.End.getD 0))).bind
          (fun c => renderAssCue "L" c)) :=
  ⟨by decide, by decide,
    c6_frame_resolver 2 1 _ (by decide) (by decide),
    c6_frame_resolver 4 1 _ (by decide) (by decide)⟩

/-- C7: the rendered caption of the active cue is the text wrapped in
【 】 when the style or speaker matches the sign pattern, wrapped in
♪ … ♪ with a trailing newline when it matches the song pattern, and the
unchanged text otherwise, always prefixed by the bracketed language name on
its own line; and the claim's examples classify as stated: style "Signs" is
a sign, "Opening Song" is a song, "Default" is neither. -/
theorem c7_cue_classification (frame : Int) (fps : ℚ) (name lang : String) (c : Cue)
    (st en : ℚ) (hf : 0 < fps) (hS : c.Start = some st) (hE : c.End = some en)
    (h1 : st ≤ (frame : ℚ) / fps) (h2 : (frame : ℚ) / fps ≤ en) (hne : c.Text ≠ "") :
    assFormat frame fps ⟨name, lang, [c]⟩ =
      Except.ok (some ("[" ++ lang ++ "]\n" ++
        (if signMatch (c.Style.getD "") || signMatch (c.Actor.getD "") then
          "【 " ++ c.Text ++ " 】"
        else if musicMatch (c.Style.getD "") || musicMatch (c.Actor.getD "") then
          "♪ " ++ c.Text ++ " ♪\n"
        else c.Text))) ∧
    signMatch "Signs" = true ∧ musicMatch "Opening Song" = true ∧
    signMatch "Default" = false ∧ musicMatch "Default" = false := by
  refine ⟨?_, by decide, by decide, by decide, by decide⟩
  have hf0 : fps ≠ 0 := ne_of_gt hf
  simp only [assFormat, if_neg hf0]
  simp only [assFormatLoop, hS, hE, if_pos h1, if_pos h2]
  congr 1
  simp only [renderAssCue]
  by_cases hsgn : (signMatch (c.Style.getD "") || signMatch (c.Actor.getD "")) = true
  · have hw : ("【 " ++ c.Text ++ " 】") ≠ "" :=
      string_append_ne_empty_right _ _ (by decide)
    simp only [hsgn, if_true, if_neg hw]
  · rw [Bool.not_eq_true] at hsgn
    by_cases hmus : (musicMatch (c.Style.getD "") || musicMatch (c.Actor.getD "")) = true
    · have hw : ("♪ " ++ c.Text ++ " ♪\n") ≠ "" :=
        string_append_ne_empty_right _ _ (by decide)
      simp only [hsgn, hmus, Bool.false_eq_true, if_false, if_true, if_neg hw]
    · rw [Bool.not_eq_true] at hmus
      simp only [hsgn, hmus, Bool.false_eq_true, if_false, if_neg hne]

/-- Witness for c7_cue_classification at a "Signs"-styled cue. -/
theorem c7_cue_classification_witness :
    (0 : ℚ) < 1 ∧
    ((⟨none, some 0, some 2, some "Signs", none, none, none, none, none, "Hi"⟩ : Cue).Start
      = some 0) ∧
    (0 : ℚ) ≤ ((1 : Int) : ℚ) / 1 ∧ ((1 : Int) : ℚ) / 1 ≤ 2 ∧
    assFormat 1 1 ⟨"f", "L",
        [⟨none, some 0, some 2, some "Signs", none, none, none, none, none, "Hi"⟩]⟩
      = Except.ok (some ("[" ++ "L" ++ "]\n" ++
          (if signMatch ((⟨none, some 0, some 2, some "Signs", none, none, none, none,
                none, "Hi"⟩ : Cue).Style.getD "")
              || signMatch ((⟨none, some 0, some 2, some "Signs", none, none, none, none,
                none, "Hi"⟩ : Cue).Actor.getD "") then
            "【 " ++ "Hi" ++ " 】"
          else if musicMatch ((⟨none, some 0, some 2, some "Signs", none, none, none, none,
                none, "Hi"⟩ : Cue).Style.getD "")
              || musicMatch ((⟨none, some 0, some 2, some "Signs", none, none, none, none,
                none, "Hi"⟩ : Cue).Actor.getD "") then
            "♪ " ++ "Hi" ++ " ♪\n"
          else "Hi"))) :=
  ⟨by decide, rfl, by simp, by simp,
    (c7_cue_classification 1 1 "f" "L" _ 0 2 (by decide) rfl rfl
      (by simp) (by simp) (by decide)).1⟩

/-- The accumulation loop, when every per-file fragment computation
succeeds, produces the concatenation of the fragment pieces in file order. -/
theorem aggregateLoop_eq (fn : Int) (fps : ℚ) (detect : String → Option String) :
    ∀ (files : List (String × String)) (frags : List (Option String)),
      files.map (subtitleFragment fn fps detect) = frags.map Except.ok →
      aggregateLoop fn fps detect files = Except.ok (concatAll (frags.map fragPiece)) := by
  intro files
  induction files with
  | nil =>
    intro frags h
    cases frags with
    | nil => rfl
    | cons g grest => simp at h
  | cons f rest ih =>
    intro frags h
    cases frags with
    | nil => simp at h
    | cons g grest =>
      simp only [List.map_cons, List.cons.injEq] at h
      obtain ⟨hh, ht⟩ := h
      simp only [aggregateLoop, hh, ih grest ht]
      rfl

/-- Every fragment piece is either empty or ends in the blank-line
separator, so the whole concatenation does too. -/
theorem concat_pieces_ends :
    ∀ frags : List (Option String),
      concatAll (frags.map fragPiece) = "" ∨
      ∃ p, concatAll (frags.map fragPiece) = p ++ "\n\n" := by
  intro frags
  induction frags with
  | nil => exact Or.inl rfl
  | cons g rest ih =>
    show concatAll (fragPiece g :: rest.map fragPiece) = "" ∨ _
    cases g with
    | none =>
      simpa only [concatAll, fragPiece] using ih
    | some msg =>
      by_cases hm : msg = ""
      · simpa only [concatAll, fragPiece, hm, if_pos rfl] using ih
      · refine Or.inr ?_
        rcases ih with h0 | ⟨p, hp⟩
        · refine ⟨msg, ?_⟩
          show fragPiece (some msg) ++ concatAll (rest.map fragPiece) = msg ++ "\n\n"
          rw [h0, string_append_empty]
          simp only [fragPiece, if_neg hm]
        · refine ⟨msg ++ "\n\n" ++ p, ?_⟩
          show fragPiece (some msg) ++ concatAll (rest.map fragPiece) = msg ++ "\n\n" ++ p ++ "\n\n"
          rw [hp]
          simp only [fragPiece, if_neg hm]
          rw [string_append_assoc (msg ++ "\n\n") p "\n\n"]

/-- A nonempty fragment makes the concatenation nonempty. -/
theorem concat_pieces_ne_empty :
    ∀ (frags : List (Option String)) (t : String),
      some t ∈ frags → t ≠ "" → concatAll (frags.map fragPiece) ≠ "" := by
  intro frags
  induction frags with
  | nil => intro t hmem; exact absurd hmem (List.not_mem_nil _)
  | cons g rest ih =>
    intro t hmem hne
    rcases List.mem_cons.mp hmem with hg | hr
    · subst hg
      show fragPiece (some t) ++ concatAll (rest.map fragPiece) ≠ ""
      simp only [fragPiece, if_neg hne]
      intro hc
      have hd : (t ++ "\n\n").data ++ (concatAll (rest.map fragPiece)).data = [] := by
        rw [← string_data_append, hc]
      have : (t ++ "\n\n").data = [] := (List.append_eq_nil.mp hd).1
      rw [string_data_append] at this
      have : ("\n\n" : String).data = [] := (List.append_eq_nil.mp this).2
      simp at this
    · show fragPiece g ++ concatAll (rest.map fragPiece) ≠ ""
      intro hc
      apply ih t hr hne
      have hd : (fragPiece g).data ++ (concatAll (rest.map fragPiece)).data = [] := by
        rw [← string_data_append, hc]
      have h2 : (concatAll (rest.map fragPiece)).data = [] := (List.append_eq_nil.mp hd).2
      obtain ⟨x⟩ : ∃ x, concatAll (rest.map fragPiece) = String.mk x :=
        ⟨(concatAll (rest.map fragPiece)).data, rfl⟩
      rw [show concatAll (rest.map fragPiece) = String.mk (concatAll (rest.map fragPiece)).data
        from rfl, h2]

/-- C10: when every per-file fragment computation returns (no exception)
and at least one file yields a nonempty caption fragment, the entry point
returns exactly the concatenation, in file enumeration order, of each
fragment's piece — a nonempty fragment followed by the "\n\n" separator —
and the final result ends with the untrimmed trailing "\n\n". -/
theorem c10_caption_aggregation (fn ep : Int) (fps : ℚ) (detect : String → Option String)
    (files : List (String × String)) (frags : List (Option String)) (t : String)
    (hmap : files.map (subtitleFragment fn fps detect) = frags.map Except.ok)
    (hmem : some t ∈ frags) (hne : t ≠ "") :
    get_subtitle_for_frame (PyVal.int fn) (PyVal.int ep) fps (some files) detect
      = Except.ok (some (concatAll (frags.map fragPiece))) ∧
    ∃ p, concatAll (frags.map fragPiece) = p ++ "\n\n" := by
  have hagg := aggregateLoop_eq fn fps detect files frags hmap
  have hnem : concatAll (frags.map fragPiece) ≠ "" := concat_pieces_ne_empty frags t hmem hne
  refine ⟨?_, (concat_pieces_ends frags).resolve_left hnem⟩
  have hfe : files.isEmpty = false := by
    cases files with
    | nil =>
      exfalso
      cases frags with
      | nil => exact absurd hmem (List.not_mem_nil _)
      | cons g grest => simp at hmap
    | cons f rest => rfl
  show (match (some files : Option (List (String × String))) with
    | none => Except.ok none
    | some fs =>
      if fs.isEmpty then Except.ok none
      else
        match aggregateLoop fn fps detect fs with
        | Except.error e => Except.error e
        | Except.ok msgs => Except.ok (if msgs = "" then none else some msgs)) = _
  simp only [hfe, Bool.false_eq_true, if_false, hagg, if_neg hnem]

/-- Witness for c10_caption_aggregation: one .ass file holding one active
cue with text "Hello" yields "[Unknown]\nHello\n\n". -/
theorem c10_caption_aggregation_witness :
    ([("a.ass", "Dialogue: 0,0:00:00.00,0:00:02.00,Default,,0,0,0,,Hello")].map
        (subtitleFragment 0 1 (fun _ => none))
      = [some "[Unknown]\nHello"].map Except.ok) ∧
    some "[Unknown]\nHello" ∈ [some "[Unknown]\nHello"] ∧
    ("[Unknown]\nHello" : String) ≠ "" ∧
    get_subtitle_for_frame (PyVal.int 0) (PyVal.int 1) 1
        (some [("a.ass", "Dialogue: 0,0:00:00.00,0:00:02.00,Default,,0,0,0,,Hello")])
        (fun _ => none)
      = Except.ok (some (concatAll ([some "[Unknown]\nHello"].map fragPiece))) ∧
    ∃ p, concatAll (([some "[Unknown]\nHello"] : List (Option String)).map fragPiece)
      = p ++ "\n\n" :=
  ⟨by decide, by decide, by decide,
    (c10_caption_aggregation 0 1 1 (fun _ => none) _ _ "[Unknown]\nHello"
      (by decide) (by decide) (by decide)).1,
    (c10_caption_aggregation 0 1 1 (fun _ => none)
      [("a.ass", "Dialogue: 0,0:00:00.00,0:00:02.00,Default,,0,0,0,,Hello")]
      [some "[Unknown]\nHello"] "[Unknown]\nHello"
      (by decide) (by decide) (by decide)).2⟩

/-! ## Idempotence of the sanitizer (C8) -/

/-- Every regex match consumes at least one character. -/
theorem matchAt_pos {s : List Char} {n : Nat} (h : matchAt s = some n) : 1 ≤ n := by
  cases s with
  | nil => exact Option.noConfusion h
  | cons c t =>
    simp only [matchAt] at h
    by_cases h1 : c = '{'
    · rw [if_pos h1] at h
      by_cases h2 : (t.takeWhile (fun x => x ≠ '}')).length < t.length
      · rw [if_pos h2] at h
        cases h
        omega
      · rw [if_neg h2] at h
        exact Option.noConfusion h
    · rw [if_neg h1] at h
      by_cases h2 : c = '\\'
      · rw [if_pos h2] at h
        cases t with
        | nil => exact Option.noConfusion h
        | cons d t2 =>
          have h5 : (if d = 'N' then some 2
              else if isAsciiAlpha d = true then
                some (1 + (List.takeWhile isAsciiAlpha (d :: t2)).length +
                  (List.takeWhile isAsciiDigit
                    (List.drop (List.takeWhile isAsciiAlpha (d :: t2)).length
                      (d :: t2))).length)
              else none) = some n := h
          by_cases h3 : d = 'N'
          · rw [if_pos h3] at h5
            cases h5
            omega
          · rw [if_neg h3] at h5
            by_cases h4 : isAsciiAlpha d = true
            · rw [if_pos h4] at h5
              cases h5
              omega
            · rw [if_neg h4] at h5
              exact Option.noConfusion h5
      · rw [if_neg h2] at h
        exact Option.noConfusion h

/-- Helper: no match at the empty list. -/
theorem matchAt_nil : matchAt [] = none := rfl

/-- When no match starts at an opening brace, no closing brace follows. -/
theorem matchAt_none_brace {t : List Char} (h : matchAt ('{' :: t) = none) :
    t.contains '}' = false := by
  simp only [matchAt, if_true] at h
  by_cases h2 : (t.takeWhile (fun x => x ≠ '}')).length < t.length
  · rw [if_pos h2] at h
    exact Option.noConfusion h
  · have hle : (t.takeWhile (fun x => x ≠ '}')).length ≤ t.length :=
      (List.takeWhile_prefix _).sublist.length_le
    have hpre : t.takeWhile (fun x => x ≠ '}') = t :=
      (List.takeWhile_prefix _).eq_of_length (le_antisymm hle (le_of_not_lt h2))
    have hmem : '}' ∉ t := by
      intro hm
      have := List.takeWhile_eq_self_iff.mp hpre _ hm
      simp at this
    simpa using hmem

/-- When no match starts at a backslash, the next character is not a
letter. -/
theorem matchAt_none_bs {d : Char} {t : List Char} (h : matchAt ('\\' :: d :: t) = none) :
    isAsciiAlpha d = false := by
  simp only [matchAt, if_true] at h
  by_cases h3 : d = 'N'
  · rw [if_pos h3] at h
    exact Option.noConfusion h
  · rw [if_neg h3] at h
    by_cases h4 : isAsciiAlpha d = true
    · rw [if_pos h4] at h
      exact Option.noConfusion h
    · exact Bool.eq_false_iff.mpr h4

/-- Sufficient conditions for no match at the head. -/
theorem matchAt_none_of_ok {c : Char} {t : List Char}
    (hb : c = '{' → t.contains '}' = false)
    (hs : c = '\\' → ∀ d t2, t = d :: t2 → isAsciiAlpha d = false) :
    matchAt (c :: t) = none := by
  simp only [matchAt]
  by_cases h1 : c = '{'
  · rw [if_pos h1]
    have hmem : '}' ∉ t := by simpa using hb h1
    have hall : ∀ a ∈ t, a ≠ '}' := fun a ha hx => hmem (hx ▸ ha)
    have hpre : t.takeWhile (fun x => x ≠ '}') = t :=
      List.takeWhile_eq_self_iff.mpr (by simpa using hall)
    rw [hpre]
    simp
  · rw [if_neg h1]
    by_cases h2 : c = '\\'
    · rw [if_pos h2]
      cases t with
      | nil => rfl
      | cons d t2 =>
        have ha := hs h2 d t2 rfl
        have hN : ¬(d = 'N') := by
          intro he
          rw [he] at ha
          exact absurd ha (by decide)
        show (if d = 'N' then some 2
            else if isAsciiAlpha d = true then
              some (1 + (List.takeWhile isAsciiAlpha (d :: t2)).length +
                (List.takeWhile isAsciiDigit
                  (List.drop (List.takeWhile isAsciiAlpha (d :: t2)).length
                    (d :: t2))).length)
            else none) = none
        rw [if_neg hN, if_neg (by simp [ha])]
    · rw [if_neg h2]

/-- The substitution of the empty list is empty. -/
theorem subTagsAux_nil (fuel : Nat) : subTagsAux fuel [] = [] := by
  cases fuel <;> rfl

/-- Every character of the substituted string is a space or an input
character. -/
theorem mem_subTagsAux : ∀ {fuel : Nat} {s : List Char} {a : Char},
    a ∈ subTagsAux fuel s → a = ' ' ∨ a ∈ s := by
  intro fuel
  induction fuel with
  | zero => intro s a h; exact Or.inr h
  | succ n ih =>
    intro s a h
    cases s with
    | nil => rw [subTagsAux_nil] at h; exact absurd h (List.not_mem_nil a)
    | cons c t =>
      simp only [subTagsAux] at h
      cases hm : matchAt (c :: t) with
      | some k =>
        rw [hm] at h
        rcases List.mem_cons.mp h with h1 | h1
        · exact Or.inl h1
        · rcases ih h1 with h2 | h2
          · exact Or.inl h2
          · exact Or.inr (List.drop_subset _ _ h2)
      | none =>
        rw [hm] at h
        rcases List.mem_cons.mp h with h1 | h1
        · exact Or.inr (h1 ▸ List.mem_cons_self c t)
        · rcases ih h1 with h2 | h2
          · exact Or.inl h2
          · exact Or.inr (List.mem_cons_of_mem _ h2)

/-- The substituted string starts with a space or with the input's head. -/
theorem subTagsAux_head (fuel : Nat) (d : Char) (t2 : List Char) :
    (subTagsAux fuel (d :: t2)).head? = some ' ' ∨
      (subTagsAux fuel (d :: t2)).head? = some d := by
  cases fuel with
  | zero => exact Or.inr rfl
  | succ n =>
    simp only [subTagsAux]
    cases hm : matchAt (d :: t2) with
    | none => exact Or.inr rfl
    | some k => exact Or.inl rfl

/-- Unfolding of braceOK at a cons. -/
theorem braceOK_cons (c : Char) (t : List Char) :
    braceOK (c :: t) = ((if c = '{' then !t.contains '}' else true) && braceOK t) := rfl

/-- braceOK restricts to the tail. -/
theorem braceOK_tail {c : Char} {t : List Char} (h : braceOK (c :: t) = true) :
    braceOK t = true := by
  rw [braceOK_cons, Bool.and_eq_true] at h
  exact h.2

/-- Unfolding of bsOK at two conses. -/
theorem bsOK_cons2 (c d : Char) (t : List Char) :
    bsOK (c :: d :: t) = ((if c = '\\' then !isAsciiAlpha d else true) && bsOK (d :: t)) := rfl

/-- bsOK restricts to the tail. -/
theorem bsOK_tail {c : Char} {t : List Char} (h : bsOK (c :: t) = true) : bsOK t = true := by
  cases t with
  | nil => rfl
  | cons d t2 =>
    rw [bsOK_cons2, Bool.and_eq_true] at h
    exact h.2

/-- Unfolding of wsOK at a cons. -/
theorem wsOK_cons (c : Char) (t : List Char) :
    wsOK (c :: t) = ((if isWS c then decide (c = ' ') && headNotWS t else true) && wsOK t) := rfl

/-- wsOK restricts to the tail. -/
theorem wsOK_tail {c : Char} {t : List Char} (h : wsOK (c :: t) = true) : wsOK t = true := by
  rw [wsOK_cons, Bool.and_eq_true] at h
  exact h.2

/-- Introduction for bsOK at a cons: the tail is fine and, when the new
head is a backslash, the next character is not a letter. -/
theorem bsOK_cons_of (c : Char) (l : List Char) (hl : bsOK l = true)
    (hhd : ∀ e, l.head? = some e → c = '\\' → isAsciiAlpha e = false) :
    bsOK (c :: l) = true := by
  cases l with
  | nil => rfl
  | cons e l2 =>
    rw [bsOK_cons2, Bool.and_eq_true]
    refine ⟨?_, hl⟩
    by_cases hc : c = '\\'
    · rw [if_pos hc]
      simp [hhd e rfl hc]
    · rw [if_neg hc]

/-- A list whose head is a known non-whitespace character satisfies
headNotWS. -/
theorem headNotWS_of_head? {l : List Char} {e : Char} (h : l.head? = some e)
    (he : isWS e = false) : headNotWS l = true := by
  cases l with
  | nil => exact Option.noConfusion h
  | cons d t =>
    rw [List.head?_cons] at h
    have hde := Option.some.inj h
    subst hde
    simp [headNotWS, he]

/-- The tag substitution establishes braceOK: a surviving opening brace had
no closing brace after it, and substitution only inserts spaces. -/
theorem braceOK_subTagsAux : ∀ (fuel : Nat) (s : List Char), s.length ≤ fuel →
    braceOK (subTagsAux fuel s) = true := by
  intro fuel
  induction fuel with
  | zero =>
    intro s h
    have hnil : s = [] := List.length_eq_zero.mp (Nat.le_zero.mp h)
    subst hnil
    rfl
  | succ n ih =>
    intro s h
    cases s with
    | nil => rfl
    | cons c t =>
      simp only [subTagsAux]
      cases hm : matchAt (c :: t) with
      | some k =>
        have hk := matchAt_pos hm
        have hlen : ((c :: t).drop k).length ≤ n := by
          rw [List.length_drop]
          simp only [List.length_cons] at h ⊢
          omega
        show braceOK (' ' :: subTagsAux n ((c :: t).drop k)) = true
        rw [braceOK_cons, if_neg (by decide), Bool.true_and]
        exact ih _ hlen
      | none =>
        show braceOK (c :: subTagsAux n t) = true
        have hlen : t.length ≤ n := by
          simp only [List.length_cons] at h
          omega
        by_cases hc : c = '{'
        · subst hc
          have hcont := matchAt_none_brace hm
          have hnot : ('}') ∉ subTagsAux n t := by
            intro hmem
            rcases mem_subTagsAux hmem with h2 | h2
            · exact absurd h2 (by decide)
            · have h3 : ('}') ∉ t := by simpa using hcont
              exact h3 h2
          rw [braceOK_cons, if_pos rfl, Bool.and_eq_true]
          exact ⟨by simpa using hnot, ih t hlen⟩
        · rw [braceOK_cons, if_neg hc, Bool.true_and]
          exact ih t hlen

/-- The tag substitution establishes bsOK: a surviving backslash was not
followed by a letter, and what follows it in the output is a space or the
same next character. -/
theorem bsOK_subTagsAux : ∀ (fuel : Nat) (s : List Char), s.length ≤ fuel →
    bsOK (subTagsAux fuel s) = true := by
  intro fuel
  induction fuel with
  | zero =>
    intro s h
    have hnil : s = [] := List.length_eq_zero.mp (Nat.le_zero.mp h)
    subst hnil
    rfl
  | succ n ih =>
    intro s h
    cases s with
    | nil => rfl
    | cons c t =>
      simp only [subTagsAux]
      cases hm : matchAt (c :: t) with
      | some k =>
        have hk := matchAt_pos hm
        have hlen : ((c :: t).drop k).length ≤ n := by
          rw [List.length_drop]
          simp only [List.length_cons] at h ⊢
          omega
        show bsOK (' ' :: subTagsAux n ((c :: t).drop k)) = true
        apply bsOK_cons_of _ _ (ih _ hlen)
        intro e he hc
        exact absurd hc (by decide)
      | none =>
        show bsOK (c :: subTagsAux n t) = true
        have hlen : t.length ≤ n := by
          simp only [List.length_cons] at h
          omega
        apply bsOK_cons_of _ _ (ih t hlen)
        intro e he hc
        subst hc
        cases t with
        | nil =>
          rw [subTagsAux_nil] at he
          exact Option.noConfusion he
        | cons d t2 =>
          have hd := matchAt_none_bs hm
          rcases subTagsAux_head n d t2 with hh | hh
          · have h4 : e = ' ' := Option.some.inj (he.symm.trans hh)
            subst h4
            decide
          · have h4 : e = d := Option.some.inj (he.symm.trans hh)
            subst h4
            exact hd

/-- Collapse of the empty list is empty. -/
theorem collapseWSAux_nil (fuel : Nat) : collapseWSAux fuel [] = [] := by
  cases fuel <;> rfl

/-- Every character of the collapsed string is a space or an input
character. -/
theorem mem_collapseWSAux : ∀ {fuel : Nat} {s : List Char} {a : Char},
    a ∈ collapseWSAux fuel s → a = ' ' ∨ a ∈ s := by
  intro fuel
  induction fuel with
  | zero => intro s a h; exact Or.inr h
  | succ n ih =>
    intro s a h
    cases s with
    | nil => rw [collapseWSAux_nil] at h; exact absurd h (List.not_mem_nil a)
    | cons c t =>
      simp only [collapseWSAux] at h
      by_cases hw : isWS c = true
      · rw [if_pos hw] at h
        rcases List.mem_cons.mp h with h1 | h1
        · exact Or.inl h1
        · rcases ih h1 with h2 | h2
          · exact Or.inl h2
          · exact Or.inr (List.mem_cons_of_mem _ ((List.dropWhile_suffix isWS).sublist.subset h2))
      · rw [if_neg hw] at h
        rcases List.mem_cons.mp h with h1 | h1
        · exact Or.inr (h1 ▸ List.mem_cons_self c t)
        · rcases ih h1 with h2 | h2
          · exact Or.inl h2
          · exact Or.inr (List.mem_cons_of_mem _ h2)

/-- The collapsed string keeps a non-whitespace head. -/
theorem collapseWSAux_head_keep (fuel : Nat) (d : Char) (t : List Char)
    (hd : isWS d = false) : (collapseWSAux fuel (d :: t)).head? = some d := by
  cases fuel with
  | zero => rfl
  | succ n =>
    simp only [collapseWSAux]
    rw [if_neg (by simp [hd])]
    rfl

/-- The collapsed string starts with a space or with the input's head. -/
theorem collapseWSAux_head (fuel : Nat) (d : Char) (t : List Char) :
    (collapseWSAux fuel (d :: t)).head? = some ' ' ∨
      (collapseWSAux fuel (d :: t)).head? = some d := by
  cases fuel with
  | zero => exact Or.inr rfl
  | succ n =>
    simp only [collapseWSAux]
    by_cases hw : isWS d = true
    · rw [if_pos hw]; exact Or.inl rfl
    · rw [if_neg hw]; exact Or.inr rfl

/-- braceOK survives dropWhile. -/
theorem braceOK_dropWhile (p : Char → Bool) : ∀ l : List Char,
    braceOK l = true → braceOK (l.dropWhile p) = true := by
  intro l
  induction l with
  | nil => intro h; exact h
  | cons c t ih =>
    intro h
    rw [List.dropWhile_cons]
    by_cases hp : p c = true
    · rw [if_pos hp]
      exact ih (braceOK_tail h)
    · rw [if_neg hp]
      exact h

/-- bsOK survives dropWhile. -/
theorem bsOK_dropWhile (p : Char → Bool) : ∀ l : List Char,
    bsOK l = true → bsOK (l.dropWhile p) = true := by
  intro l
  induction l with
  | nil => intro h; exact h
  | cons c t ih =>
    intro h
    rw [List.dropWhile_cons]
    by_cases hp : p c = true
    · rw [if_pos hp]
      exact ih (bsOK_tail h)
    · rw [if_neg hp]
      exact h

/-- wsOK survives dropWhile. -/
theorem wsOK_dropWhile (p : Char → Bool) : ∀ l : List Char,
    wsOK l = true → wsOK (l.dropWhile p) = true := by
  intro l
  induction l with
  | nil => intro h; exact h
  | cons c t ih =>
    intro h
    rw [List.dropWhile_cons]
    by_cases hp : p c = true
    · rw [if_pos hp]
      exact ih (wsOK_tail h)
    · rw [if_neg hp]
      exact h

/-- The whitespace collapse preserves braceOK. -/
theorem braceOK_collapseWSAux : ∀ (fuel : Nat) (s : List Char), s.length ≤ fuel →
    braceOK s = true → braceOK (collapseWSAux fuel s) = true := by
  intro fuel
  induction fuel with
  | zero =>
    intro s h hb
    have hnil : s = [] := List.length_eq_zero.mp (Nat.le_zero.mp h)
    subst hnil
    rfl
  | succ n ih =>
    intro s h hb
    cases s with
    | nil => rfl
    | cons c t =>
      have hlen : t.length ≤ n := by
        simp only [List.length_cons] at h
        omega
      simp only [collapseWSAux]
      by_cases hw : isWS c = true
      · rw [if_pos hw, braceOK_cons, if_neg (by decide), Bool.true_and]
        have hlen2 : (t.dropWhile isWS).length ≤ n :=
          le_trans (List.dropWhile_suffix isWS).sublist.length_le hlen
        exact ih _ hlen2 (braceOK_dropWhile _ _ (braceOK_tail hb))
      · rw [if_neg hw]
        by_cases hc : c = '{'
        · subst hc
          rw [braceOK_cons, if_pos rfl, Bool.and_eq_true] at hb ⊢
          refine ⟨?_, ih t hlen hb.2⟩
          have hnt : ('}') ∉ t := by simpa using hb.1
          have hnot : ('}') ∉ collapseWSAux n t := by
            intro hmem
            rcases mem_collapseWSAux hmem with h2 | h2
            · exact absurd h2 (by decide)
            · exact hnt h2
          simpa using hnot
        · rw [braceOK_cons, if_neg hc, Bool.true_and]
          exact ih t hlen (braceOK_tail hb)

/-- The whitespace collapse preserves bsOK. -/
theorem bsOK_collapseWSAux : ∀ (fuel : Nat) (s : List Char), s.length ≤ fuel →
    bsOK s = true → bsOK (collapseWSAux fuel s) = true := by
  intro fuel
  induction fuel with
  | zero =>
    intro s h hb
    have hnil : s = [] := List.length_eq_zero.mp (Nat.le_zero.mp h)
    subst hnil
    rfl
  | succ n ih =>
    intro s h hb
    cases s with
    | nil => rfl
    | cons c t =>
      have hlen : t.length ≤ n := by
        simp only [List.length_cons] at h
        omega
      simp only [collapseWSAux]
      by_cases hw : isWS c = true
      · rw [if_pos hw]
        have hlen2 : (t.dropWhile isWS).length ≤ n :=
          le_trans (List.dropWhile_suffix isWS).sublist.length_le hlen
        apply bsOK_cons_of _ _ (ih _ hlen2 (bsOK_dropWhile _ _ (bsOK_tail hb)))
        intro e he hc
        exact absurd hc (by decide)
      · rw [if_neg hw]
        apply bsOK_cons_of _ _ (ih t hlen (bsOK_tail hb))
        intro e he hc
        subst hc
        cases t with
        | nil =>
          rw [collapseWSAux_nil] at he
          exact Option.noConfusion he
        | cons d t2 =>
          have hbd : isAsciiAlpha d = false := by
            rw [bsOK_cons2, Bool.and_eq_true, if_pos rfl] at hb
            simpa using hb.1
          rcases collapseWSAux_head n d t2 with hh | hh
          · have h4 : e = ' ' := Option.some.inj (he.symm.trans hh)
            subst h4
            decide
          · have h4 : e = d := Option.some.inj (he.symm.trans hh)
            subst h4
            exact hbd

/-- The whitespace collapse establishes wsOK: output whitespace is a single
space followed by non-whitespace. -/
theorem wsOK_collapseWSAux : ∀ (fuel : Nat) (s : List Char), s.length ≤ fuel →
    wsOK (collapseWSAux fuel s) = true := by
  intro fuel
  induction fuel with
  | zero =>
    intro s h
    have hnil : s = [] := List.length_eq_zero.mp (Nat.le_zero.mp h)
    subst hnil
    rfl
  | succ n ih =>
    intro s h
    cases s with
    | nil => rfl
    | cons c t =>
      have hlen : t.length ≤ n := by
        simp only [List.length_cons] at h
        omega
      simp only [collapseWSAux]
      by_cases hw : isWS c = true
      · rw [if_pos hw]
        have hlen2 : (t.dropWhile isWS).length ≤ n :=
          le_trans (List.dropWhile_suffix isWS).sublist.length_le hlen
        rw [wsOK_cons, if_pos (by decide), Bool.and_eq_true, Bool.and_eq_true]
        refine ⟨⟨by decide, ?_⟩, ih _ hlen2⟩
        cases hdw : t.dropWhile isWS with
        | nil => rw [collapseWSAux_nil]; rfl
        | cons d t2 =>
          have hd : isWS d = false := by
            have h5 := List.head?_dropWhile_not isWS t
            rw [hdw] at h5
            simpa using h5
          exact headNotWS_of_head? (collapseWSAux_head_keep n d t2 hd) hd
      · rw [if_neg hw, wsOK_cons, if_neg hw, Bool.true_and]
        exact ih t hlen

/-- braceOK restricts to a left factor. -/
theorem braceOK_append_left : ∀ (l1 l2 : List Char),
    braceOK (l1 ++ l2) = true → braceOK l1 = true := by
  intro l1
  induction l1 with
  | nil => intro l2 h; rfl
  | cons c t ih =>
    intro l2 h
    rw [List.cons_append, braceOK_cons, Bool.and_eq_true] at h
    rw [braceOK_cons, Bool.and_eq_true]
    refine ⟨?_, ih l2 h.2⟩
    by_cases hc : c = '{'
    · rw [if_pos hc]
      rw [if_pos hc] at h
      have h1 := h.1
      have hmem : ('}') ∉ t ++ l2 := by simpa using h1
      have : ('}') ∉ t := fun hm => hmem (List.mem_append_left _ hm)
      simpa using this
    · rw [if_neg hc]
  
/-- bsOK restricts to a left factor. -/
theorem bsOK_append_left : ∀ (l1 l2 : List Char),
    bsOK (l1 ++ l2) = true → bsOK l1 = true := by
  intro l1
  induction l1 with
  | nil => intro l2 h; rfl
  | cons c t ih =>
    intro l2 h
    cases t with
    | nil => rfl
    | cons d t2 =>
      rw [List.cons_append, List.cons_append, bsOK_cons2, Bool.and_eq_true] at h
      rw [bsOK_cons2, Bool.and_eq_true]
      exact ⟨h.1, ih l2 h.2⟩

/-- wsOK restricts to a left factor. -/
theorem wsOK_append_left : ∀ (l1 l2 : List Char),
    wsOK (l1 ++ l2) = true → wsOK l1 = true := by
  intro l1
  induction l1 with
  | nil => intro l2 h; rfl
  | cons c t ih =>
    intro l2 h
    rw [List.cons_append, wsOK_cons, Bool.and_eq_true] at h
    rw [wsOK_cons, Bool.and_eq_true]
    refine ⟨?_, ih l2 h.2⟩
    by_cases hw : isWS c = true
    · rw [if_pos hw]
      rw [if_pos hw, Bool.and_eq_true] at h
      have h1 := h.1
      rw [Bool.and_eq_true]
      refine ⟨h1.1, ?_⟩
      cases t with
      | nil => rfl
      | cons d t2 =>
        rw [List.cons_append] at h1
        exact h1.2
    · rw [if_neg hw]

/-- The right strip leaves a prefix of the string. -/
theorem rstrip_append (s : List Char) : s = rstripWS s ++ (s.reverse.takeWhile isWS).reverse := by
  conv_lhs => rw [← List.reverse_reverse s, ← List.takeWhile_append_dropWhile isWS s.reverse]
  rw [List.reverse_append]
  rfl

/-- The right strip ends without whitespace. -/
theorem lastNotWS_rstrip (s : List Char) : lastNotWS (rstripWS s) = true := by
  unfold lastNotWS rstripWS
  rw [List.reverse_reverse]
  cases hd : s.reverse.dropWhile isWS with
  | nil => rfl
  | cons d t2 =>
    have h5 := List.head?_dropWhile_not isWS s.reverse
    rw [hd] at h5
    simp only [List.head?_cons, Option.some.injEq, forall_eq] at h5
    simp [headNotWS, h5]

/-- The left drop of whitespace starts without whitespace. -/
theorem headNotWS_dropWhile (s : List Char) : headNotWS (s.dropWhile isWS) = true := by
  cases hd : s.dropWhile isWS with
  | nil => rfl
  | cons d t2 =>
    have h5 := List.head?_dropWhile_not isWS s
    rw [hd] at h5
    simp only [List.head?_cons, Option.some.injEq, forall_eq] at h5
    simp [headNotWS, h5]

/-- The right strip preserves a non-whitespace head. -/
theorem headNotWS_rstrip (s : List Char) (h : headNotWS s = true) :
    headNotWS (rstripWS s) = true := by
  cases hh : rstripWS s with
  | nil => rfl
  | cons c t2 =>
    have hr := rstrip_append s
    rw [hh] at hr
    rw [hr, List.cons_append] at h
    simpa [headNotWS] using h

/-- braceOK survives the right strip. -/
theorem braceOK_rstrip (s : List Char) (h : braceOK s = true) :
    braceOK (rstripWS s) = true :=
  braceOK_append_left _ _ ((rstrip_append s) ▸ h)

/-- bsOK survives the right strip. -/
theorem bsOK_rstrip (s : List Char) (h : bsOK s = true) :
    bsOK (rstripWS s) = true :=
  bsOK_append_left _ _ ((rstrip_append s) ▸ h)

/-- wsOK survives the right strip. -/
theorem wsOK_rstrip (s : List Char) (h : wsOK s = true) :
    wsOK (rstripWS s) = true :=
  wsOK_append_left _ _ ((rstrip_append s) ▸ h)

/-- braceOK survives the full strip. -/
theorem braceOK_stripWS (s : List Char) (h : braceOK s = true) :
    braceOK (stripWS s) = true :=
  braceOK_rstrip _ (braceOK_dropWhile _ _ h)

/-- bsOK survives the full strip. -/
theorem bsOK_stripWS (s : List Char) (h : bsOK s = true) :
    bsOK (stripWS s) = true :=
  bsOK_rstrip _ (bsOK_dropWhile _ _ h)

/-- wsOK survives the full strip. -/
theorem wsOK_stripWS (s : List Char) (h : wsOK s = true) :
    wsOK (stripWS s) = true :=
  wsOK_rstrip _ (wsOK_dropWhile _ _ h)

/-- The full strip starts without whitespace. -/
theorem headNotWS_stripWS (s : List Char) : headNotWS (stripWS s) = true :=
  headNotWS_rstrip _ (headNotWS_dropWhile s)

/-- The full strip ends without whitespace. -/
theorem lastNotWS_stripWS (s : List Char) : lastNotWS (stripWS s) = true :=
  lastNotWS_rstrip _

/-- On a braceOK and bsOK string the tag substitution is the identity. -/
theorem subTagsAux_eq_self : ∀ (fuel : Nat) (s : List Char), braceOK s = true →
    bsOK s = true → subTagsAux fuel s = s := by
  intro fuel
  induction fuel with
  | zero => intro s hb hs; rfl
  | succ n ih =>
    intro s hb hs
    cases s with
    | nil => rfl
    | cons c t =>
      have hm : matchAt (c :: t) = none := by
        apply matchAt_none_of_ok
        · intro hc
          subst hc
          rw [braceOK_cons, if_pos rfl, Bool.and_eq_true] at hb
          simpa using hb.1
        · intro hc d t2 ht
          subst hc
          subst ht
          rw [bsOK_cons2, if_pos rfl, Bool.and_eq_true] at hs
          simpa using hs.1
      simp only [subTagsAux, hm]
      rw [ih t (braceOK_tail hb) (bsOK_tail hs)]

/-- On a wsOK string the whitespace collapse is the identity. -/
theorem collapseWSAux_eq_self : ∀ (fuel : Nat) (s : List Char), wsOK s = true →
    collapseWSAux fuel s = s := by
  intro fuel
  induction fuel with
  | zero => intro s hw; rfl
  | succ n ih =>
    intro s hw
    cases s with
    | nil => rfl
    | cons c t =>
      simp only [collapseWSAux]
      by_cases hc : isWS c = true
      · rw [if_pos hc]
        rw [wsOK_cons, if_pos hc, Bool.and_eq_true, Bool.and_eq_true] at hw
        have hsp : c = ' ' := by simpa using hw.1.1
        have hdw : t.dropWhile isWS = t := by
          cases t with
          | nil => rfl
          | cons d t2 =>
            have hd : isWS d = false := by
              have := hw.1.2
              simpa [headNotWS] using this
            exact List.dropWhile_cons_of_neg (by simp [hd])
        rw [hdw, hsp, ih t hw.2]
      · rw [if_neg hc]
        rw [ih t (wsOK_tail hw)]

/-- On a string with non-whitespace ends the strip is the identity. -/
theorem stripWS_eq_self (s : List Char) (h1 : headNotWS s = true)
    (h2 : lastNotWS s = true) : stripWS s = s := by
  unfold stripWS
  have hd : s.dropWhile isWS = s := by
    cases s with
    | nil => rfl
    | cons c t =>
      have hc : isWS c = false := by simpa [headNotWS] using h1
      exact List.dropWhile_cons_of_neg (by simp [hc])
  rw [hd]
  unfold rstripWS
  have hd2 : s.reverse.dropWhile isWS = s.reverse := by
    cases hr : s.reverse with
    | nil => rfl
    | cons c t =>
      unfold lastNotWS at h2
      rw [hr] at h2
      have hc : isWS c = false := by simpa [headNotWS] using h2
      exact List.dropWhile_cons_of_neg (by simp [hc])
  rw [hd2, List.reverse_reverse]

/-- The sanitizer pipeline is idempotent on character lists. -/
theorem sanitizeChars_idem (s : List Char) :
    sanitizeChars (sanitizeChars s) = sanitizeChars s := by
  have hb1 : braceOK (subTags s) = true := braceOK_subTagsAux _ _ le_rfl
  have hs1 : bsOK (subTags s) = true := bsOK_subTagsAux _ _ le_rfl
  have hb2 : braceOK (collapseWS (subTags s)) = true :=
    braceOK_collapseWSAux _ _ le_rfl hb1
  have hs2 : bsOK (collapseWS (subTags s)) = true :=
    bsOK_collapseWSAux _ _ le_rfl hs1
  have hw2 : wsOK (collapseWS (subTags s)) = true := wsOK_collapseWSAux _ _ le_rfl
  have hb3 : braceOK (sanitizeChars s) = true := braceOK_stripWS _ hb2
  have hs3 : bsOK (sanitizeChars s) = true := bsOK_stripWS _ hs2
  have hw3 : wsOK (sanitizeChars s) = true := wsOK_stripWS _ hw2
  have hh3 : headNotWS (sanitizeChars s) = true := headNotWS_stripWS _
  have hl3 : lastNotWS (sanitizeChars s) = true := lastNotWS_stripWS _
  show stripWS (collapseWS (subTags (sanitizeChars s))) = sanitizeChars s
  rw [show subTags (sanitizeChars s) = sanitizeChars s from
    subTagsAux_eq_self _ _ hb3 hs3]
  rw [show collapseWS (sanitizeChars s) = sanitizeChars s from
    collapseWSAux_eq_self _ _ hw3]
  exact stripWS_eq_self _ hh3 hl3

/-- C8: the cue sanitizer is idempotent — for every string x,
remove_tags (remove_tags x) = remove_tags x. -/
theorem c8_sanitizer_idempotent (x : String) :
    remove_tags (remove_tags x) = remove_tags x := by
  by_cases hx : x = ""
  · rw [hx]
    rfl
  · simp only [remove_tags, if_neg hx]
    by_cases h2 : String.mk (sanitizeChars x.data) = ""
    · rw [if_pos h2]
    · rw [if_neg h2]
      show String.mk (sanitizeChars (sanitizeChars x.data)) = String.mk (sanitizeChars x.data)
      rw [sanitizeChars_idem]

/-! ## Round-trip accuracy of the timestamp codec (C9) -/

/-- pyRound returns the floor or the floor plus one. -/
theorem pyRound_mem (q : ℚ) : pyRound q = ⌊q⌋ ∨ pyRound q = ⌊q⌋ + 1 := by
  simp only [pyRound]
  split_ifs with ha hb hc
  · exact Or.inl rfl
  · exact Or.inr rfl
  · exact Or.inl rfl
  · exact Or.inr rfl

/-- Banker's rounding is within a half of its argument. -/
theorem pyRound_sub_abs (q : ℚ) : |(pyRound q : ℚ) - q| ≤ 1 / 2 := by
  have hfl : (⌊q⌋ : ℚ) ≤ q := Int.floor_le q
  have hfu : q < (⌊q⌋ : ℚ) + 1 := Int.lt_floor_add_one q
  simp only [pyRound]
  split_ifs with ha hb hc
  · rw [abs_sub_comm, abs_of_nonneg (by linarith)]
    linarith
  · rw [abs_of_nonneg (by push_cast; linarith)]
    push_cast
    linarith
  · rw [abs_sub_comm, abs_of_nonneg (by linarith)]
    linarith
  · rw [abs_of_nonneg (by push_cast; linarith)]
    push_cast
    linarith

/-- pyRound of a nonnegative argument is nonnegative. -/
theorem pyRound_nonneg (q : ℚ) (h : 0 ≤ q) : 0 ≤ pyRound q := by
  have hfl : 0 ≤ ⌊q⌋ := Int.floor_nonneg.mpr h
  rcases pyRound_mem q with h1 | h1 <;> omega

/-- pyRound is at most the floor plus one. -/
theorem pyRound_le (q : ℚ) : pyRound q ≤ ⌊q⌋ + 1 := by
  rcases pyRound_mem q with h1 | h1 <;> omega

/-- The carry chain preserves the represented value. -/
theorem carryHMSC_val (h m s cc : Int) :
    hmscVal (carryHMSC (h, m, s, cc))
      = (h : ℚ) * 3600 + (m : ℚ) * 60 + (s : ℚ) + (cc : ℚ) / 100 := by
  simp only [carryHMSC]
  split_ifs with h1 h2 h3
  · have hs : s = 59 := by omega
    have hm : m = 59 := by omega
    subst hs
    subst hm
    subst h1
    unfold hmscVal
    push_cast
    ring
  · have hs : s = 59 := by omega
    subst hs
    subst h1
    unfold hmscVal
    push_cast
    ring
  · subst h1
    unfold hmscVal
    push_cast
    ring
  · rfl

/-- The carry chain keeps every component in range provided the inputs are
in their pre-carry ranges. -/
theorem carryHMSC_range (h m s cc : Int) (hh : 0 ≤ h) (hm1 : 0 ≤ m) (hm2 : m ≤ 59)
    (hs1 : 0 ≤ s) (hs2 : s ≤ 59) (hc1 : 0 ≤ cc) (hc2 : cc ≤ 100) :
    0 ≤ (carryHMSC (h, m, s, cc)).1 ∧
    0 ≤ (carryHMSC (h, m, s, cc)).2.1 ∧ (carryHMSC (h, m, s, cc)).2.1 ≤ 59 ∧
    0 ≤ (carryHMSC (h, m, s, cc)).2.2.1 ∧ (carryHMSC (h, m, s, cc)).2.2.1 ≤ 59 ∧
    0 ≤ (carryHMSC (h, m, s, cc)).2.2.2 ∧ (carryHMSC (h, m, s, cc)).2.2.2 ≤ 99 := by
  simp only [carryHMSC]
  split_ifs with h1 h2 h3 <;>
    refine ⟨?_, ?_, ?_, ?_, ?_, ?_, ?_⟩ <;> dsimp only <;> omega

/-- Floor-division bounds: quotient nonnegative, remainder in `[0, d)`. -/
theorem divRem_bounds (a d : ℚ) (hd : 0 < d) (ha : 0 ≤ a) :
    0 ≤ divFloor a d ∧ 0 ≤ divRem a d ∧ divRem a d < d := by
  have hq0 : 0 ≤ a / d := div_nonneg ha hd.le
  have hfl : (⌊a / d⌋ : ℚ) ≤ a / d := Int.floor_le _
  have hfu : a / d < (⌊a / d⌋ : ℚ) + 1 := Int.lt_floor_add_one _
  refine ⟨Int.floor_nonneg.mpr hq0, ?_, ?_⟩
  · unfold divRem divFloor
    have : (⌊a / d⌋ : ℚ) * d ≤ a := by
      have := mul_le_mul_of_nonneg_right hfl hd.le
      rwa [div_mul_cancel₀ a (ne_of_gt hd)] at this
    linarith [this]
  · unfold divRem divFloor
    have : a < ((⌊a / d⌋ : ℚ) + 1) * d := by
      have := mul_lt_mul_of_pos_right hfu hd
      rwa [div_mul_cancel₀ a (ne_of_gt hd)] at this
    nlinarith [this]

/-- The pre-carry decomposition: component ranges and accuracy of the
represented value to within half a centisecond. -/
theorem hmscRaw_spec (total : ℚ) (ht : 0 ≤ total) :
    0 ≤ (hmscRaw total).1 ∧
    0 ≤ (hmscRaw total).2.1 ∧ (hmscRaw total).2.1 ≤ 59 ∧
    0 ≤ (hmscRaw total).2.2.1 ∧ (hmscRaw total).2.2.1 ≤ 59 ∧
    0 ≤ (hmscRaw total).2.2.2 ∧ (hmscRaw total).2.2.2 ≤ 100 ∧
    |hmscVal (hmscRaw total) - total| ≤ 1 / 200 := by
  obtain ⟨hq1, hr1, hr2⟩ := divRem_bounds total 3600 (by norm_num) ht
  obtain ⟨hq2, hs1, hs2⟩ := divRem_bounds (divRem total 3600) 60 (by norm_num) hr1
  have hmin_ub : divFloor (divRem total 3600) 60 ≤ 59 := by
    have hlt : divRem total 3600 / 60 < ((60 : Int) : ℚ) := by
      push_cast
      rw [div_lt_iff₀ (by norm_num : (0:ℚ) < 60)]
      linarith
    have h60 := Int.floor_lt.mpr hlt
    unfold divFloor
    omega
  set secq := divRem (divRem total 3600) 60 with hsecq
  have hfl : (⌊secq⌋ : ℚ) ≤ secq := Int.floor_le _
  have hfu : secq < (⌊secq⌋ : ℚ) + 1 := Int.lt_floor_add_one _
  have hfl0 : 0 ≤ ⌊secq⌋ := Int.floor_nonneg.mpr hs1
  have hfl59 : ⌊secq⌋ ≤ 59 := by
    have h60 := Int.floor_lt.mpr (show secq < ((60 : Int) : ℚ) by exact_mod_cast hs2)
    omega
  set frac := secq - (⌊secq⌋ : ℚ) with hfrac
  have hfr0 : 0 ≤ frac := by rw [hfrac]; linarith
  have hfr1 : frac < 1 := by rw [hfrac]; linarith
  have hx0 : 0 ≤ frac * 100 := by linarith
  have hx1 : frac * 100 < 100 := by linarith
  have hcc0 : 0 ≤ pyRound (frac * 100) := pyRound_nonneg _ hx0
  have hcc1 : pyRound (frac * 100) ≤ 100 := by
    have h99 : ⌊frac * 100⌋ ≤ 99 := by
      have h100 := Int.floor_lt.mpr
        (show frac * 100 < ((100 : Int) : ℚ) by exact_mod_cast hx1)
      omega
    have hle := pyRound_le (frac * 100)
    omega
  have habs : |(pyRound (frac * 100) : ℚ) - frac * 100| ≤ 1 / 2 := pyRound_sub_abs _
  refine ⟨hq1, hq2, hmin_ub, hfl0, hfl59, hcc0, hcc1, ?_⟩
  show |(divFloor total 3600 : ℚ) * 3600 + (divFloor (divRem total 3600) 60 : ℚ) * 60 +
    (⌊secq⌋ : ℚ) + (pyRound (frac * 100) : ℚ) / 100 - total| ≤ 1 / 200
  have hdiff : (divFloor total 3600 : ℚ) * 3600 + (divFloor (divRem total 3600) 60 : ℚ) * 60 +
      (⌊secq⌋ : ℚ) + (pyRound (frac * 100) : ℚ) / 100 - total
      = ((pyRound (frac * 100) : ℚ) - frac * 100) / 100 := by
    rw [hfrac, hsecq]
    unfold divRem
    ring
  rw [hdiff, abs_div, abs_of_pos (show (0:ℚ) < 100 by norm_num)]
  linarith [habs]

/-- Full decomposition spec for frame_to_timestamp's arithmetic. -/
theorem frameHMSC_spec (frame : Int) (fps : ℚ) (h0 : 0 ≤ frame) (h1 : 0 < fps) :
    0 ≤ (frameHMSC frame fps).1 ∧
    0 ≤ (frameHMSC frame fps).2.1 ∧ (frameHMSC frame fps).2.1 ≤ 59 ∧
    0 ≤ (frameHMSC frame fps).2.2.1 ∧ (frameHMSC frame fps).2.2.1 ≤ 59 ∧
    0 ≤ (frameHMSC frame fps).2.2.2 ∧ (frameHMSC frame fps).2.2.2 ≤ 99 ∧
    |hmscVal (frameHMSC frame fps) - (frame : ℚ) / fps| ≤ 1 / 200 := by
  have ht : (0 : ℚ) ≤ (frame : ℚ) / fps :=
    div_nonneg (by exact_mod_cast h0) h1.le
  obtain ⟨ha1, ha2, ha3, ha4, ha5, ha6, ha7, ha8⟩ := hmscRaw_spec ((frame : ℚ) / fps) ht
  have heq : frameHMSC frame fps = carryHMSC (hmscRaw ((frame : ℚ) / fps)) := rfl
  rw [heq]
  set r0 := hmscRaw ((frame : ℚ) / fps) with hr0
  have heta : (r0.1, r0.2.1, r0.2.2.1, r0.2.2.2) = r0 := rfl
  have hrange := carryHMSC_range r0.1 r0.2.1 r0.2.2.1 r0.2.2.2 ha1 ha2 ha3 ha4 ha5 ha6 ha7
  rw [heta] at hrange
  have hval := carryHMSC_val r0.1 r0.2.1 r0.2.2.1 r0.2.2.2
  rw [heta] at hval
  refine ⟨hrange.1, hrange.2.1, hrange.2.2.1, hrange.2.2.2.1, hrange.2.2.2.2.1,
    hrange.2.2.2.2.2.1, hrange.2.2.2.2.2.2, ?_⟩
  rw [hval]
  exact ha8

/-- Decimal digit characters are digits. -/
theorem digitChar_isDigit (d : Nat) (h : d < 10) : isAsciiDigit (digitChar d) = true := by
  interval_cases d <;> decide

/-- Decimal digit characters decode to their value. -/
theorem digitChar_val (d : Nat) (h : d < 10) : charDigitVal (digitChar d) = d := by
  interval_cases d <;> decide

/-- Every character printed for a natural number is a digit. -/
theorem natToCharsAux_digits : ∀ (fuel n : Nat), n < fuel →
    ∀ c ∈ natToCharsAux fuel n, isAsciiDigit c = true := by
  intro fuel
  induction fuel with
  | zero => intro n h; omega
  | succ k ih =>
    intro n h c hc
    simp only [natToCharsAux] at hc
    by_cases h10 : n < 10
    · rw [if_pos h10] at hc
      rcases List.mem_singleton.mp hc with rfl
      exact digitChar_isDigit n h10
    · rw [if_neg h10] at hc
      rcases List.mem_append.mp hc with h1 | h1
      · have hdiv : n / 10 < k := by
          have := Nat.div_lt_self (by omega : 0 < n) (by omega : 1 < 10)
          omega
        exact ih (n / 10) hdiv c h1
      · rcases List.mem_singleton.mp h1 with rfl
        exact digitChar_isDigit _ (Nat.mod_lt n (by omega))

/-- The printed number is nonempty. -/
theorem natToCharsAux_ne_nil (fuel n : Nat) (h : n < fuel) :
    natToCharsAux fuel n ≠ [] := by
  cases fuel with
  | zero => omega
  | succ k =>
    simp only [natToCharsAux]
    by_cases h10 : n < 10
    · rw [if_pos h10]
      simp
    · rw [if_neg h10]
      simp

/-- Digit-string values accumulate over an append. -/
theorem digitsVal_append (xs ys : List Char) :
    digitsVal (xs ++ ys) = ys.foldl (fun a c => 10 * a + charDigitVal c) (digitsVal xs) := by
  unfold digitsVal
  rw [List.foldl_append]

/-- The printed number decodes to itself. -/
theorem digitsVal_natToCharsAux : ∀ (fuel n : Nat), n < fuel →
    digitsVal (natToCharsAux fuel n) = n := by
  intro fuel
  induction fuel with
  | zero => intro n h; omega
  | succ k ih =>
    intro n h
    simp only [natToCharsAux]
    by_cases h10 : n < 10
    · rw [if_pos h10]
      show 10 * 0 + charDigitVal (digitChar n) = n
      rw [digitChar_val n h10]
      omega
    · rw [if_neg h10]
      rw [digitsVal_append]
      have hdiv : n / 10 < k := by
        have := Nat.div_lt_self (by omega : 0 < n) (by omega : 1 < 10)
        omega
      show 10 * digitsVal (natToCharsAux k (n / 10)) + charDigitVal (digitChar (n % 10)) = n
      rw [ih (n / 10) hdiv, digitChar_val _ (Nat.mod_lt n (by omega))]
      omega

/-- Digits are not whitespace. -/
theorem isWS_of_digit (c : Char) (h : isAsciiDigit c = true) : isWS c = false := by
  simp only [isAsciiDigit, Bool.and_eq_true, decide_eq_true_eq] at h
  simp only [isWS, Bool.or_eq_false_iff, decide_eq_false_iff_not]
  omega

/-- Stripping does nothing to an all-digit string. -/
theorem stripWS_digits (l : List Char) (h : ∀ c ∈ l, isAsciiDigit c = true) :
    stripWS l = l := by
  have hnws : ∀ c ∈ l, isWS c = false := fun c hc => isWS_of_digit c (h c hc)
  unfold stripWS
  have h1 : l.dropWhile isWS = l := by
    cases l with
    | nil => rfl
    | cons c t => exact List.dropWhile_cons_of_neg (by simp [hnws c (List.mem_cons_self c t)])
  rw [h1]
  unfold rstripWS
  have h2 : l.reverse.dropWhile isWS = l.reverse := by
    cases hr : l.reverse with
    | nil => rfl
    | cons c t =>
      have hc : c ∈ l := by
        rw [← List.mem_reverse, hr]
        exact List.mem_cons_self c t
      exact List.dropWhile_cons_of_neg (by simp [hnws c hc])
  rw [h2, List.reverse_reverse]

/-- Python int() of a nonempty all-digit string is its decimal value. -/
theorem pyInt_digits (ds : List Char) (hne : ds ≠ [])
    (hd : ∀ c ∈ ds, isAsciiDigit c = true) :
    pyInt ds = some ((digitsVal ds : Nat) : Int) := by
  unfold pyInt
  rw [stripWS_digits ds hd]
  cases ds with
  | nil => exact absurd rfl hne
  | cons c t =>
    have hc := hd c (List.mem_cons_self c t)
    have hplus : ¬(c = '+') := by
      intro he
      rw [he] at hc
      exact absurd hc (by decide)
    have hminus : ¬(c = '-') := by
      intro he
      rw [he] at hc
      exact absurd hc (by decide)
    dsimp only
    rw [if_neg hplus, if_neg hminus]
    unfold digitsToNat
    rw [if_pos ⟨by simp, by simpa [List.all_eq_true] using hd⟩]
    rfl

/-- Printing a nonnegative integer uses only digits. -/
theorem intToChars_nonneg (z : Int) (h : 0 ≤ z) :
    intToChars z = natToChars z.natAbs := by
  unfold intToChars
  rw [if_neg (by omega)]

/-- Python int() of the printed nonnegative integer is the integer. -/
theorem pyInt_intToChars (z : Int) (h : 0 ≤ z) : pyInt (intToChars z) = some z := by
  rw [intToChars_nonneg z h]
  unfold natToChars
  rw [pyInt_digits _ (natToCharsAux_ne_nil _ _ (by omega))
    (natToCharsAux_digits _ _ (by omega))]
  rw [digitsVal_natToCharsAux _ _ (by omega)]
  congr 1
  omega

/-- The zero-padded field holds only digits. -/
theorem padTwo_digits (z : Int) (h1 : 0 ≤ z) :
    ∀ c ∈ padTwo z, isAsciiDigit c = true := by
  intro c hc
  unfold padTwo at hc
  by_cases hz : 0 ≤ z ∧ z < 10
  · rw [if_pos hz] at hc
    rcases List.mem_cons.mp hc with rfl | h2
    · decide
    · rw [intToChars_nonneg z h1] at h2
      exact natToCharsAux_digits _ _ (by omega) c h2
  · rw [if_neg hz] at hc
    rw [intToChars_nonneg z h1] at hc
    exact natToCharsAux_digits _ _ (by omega) c hc

/-- The zero-padded field is nonempty. -/
theorem padTwo_ne_nil (z : Int) (h1 : 0 ≤ z) : padTwo z ≠ [] := by
  unfold padTwo
  by_cases hz : 0 ≤ z ∧ z < 10
  · rw [if_pos hz]
    simp
  · rw [if_neg hz]
    rw [intToChars_nonneg z h1]
    exact natToCharsAux_ne_nil _ _ (by omega)

/-- Python int() of the zero-padded field is the value. -/
theorem pyInt_padTwo (z : Int) (h1 : 0 ≤ z) : pyInt (padTwo z) = some z := by
  unfold padTwo
  by_cases hz : 0 ≤ z ∧ z < 10
  · rw [if_pos hz]
    rw [intToChars_nonneg z h1]
    unfold natToChars
    rw [pyInt_digits _ (by simp)
      (by
        intro c hc
        rcases List.mem_cons.mp hc with rfl | h2
        · decide
        · exact natToCharsAux_digits _ _ (by omega) c h2)]
    have hv : digitsVal ('0' :: natToCharsAux (z.natAbs + 1) z.natAbs) =
        digitsVal (natToCharsAux (z.natAbs + 1) z.natAbs) := by
      unfold digitsVal
      rfl
    rw [hv, digitsVal_natToCharsAux _ _ (by omega)]
    congr 1
    omega
  · rw [if_neg hz]
    exact pyInt_intToChars z h1

/-- takeWhile of "not the separator" stops exactly at the separator. -/
theorem takeWhile_ne_append (sep : Char) (xs ys : List Char) (h : ∀ c ∈ xs, c ≠ sep) :
    (xs ++ sep :: ys).takeWhile (fun c => c ≠ sep) = xs := by
  induction xs with
  | nil =>
    rw [List.nil_append]
    exact List.takeWhile_cons_of_neg (by simp)
  | cons c t ih =>
    rw [List.cons_append,
      List.takeWhile_cons_of_pos (by simp [h c (List.mem_cons_self c t)]),
      ih (fun x hx => h x (List.mem_cons_of_mem _ hx))]

/-- A split with no separator present is the whole string. -/
theorem pySplitN_no_sep (sep : Char) (n : Nat) (s : List Char)
    (h : ∀ c ∈ s, c ≠ sep) : pySplitN sep n s = [s] := by
  cases n with
  | zero => rfl
  | succ k =>
    simp only [pySplitN]
    have htw : s.takeWhile (fun c => c ≠ sep) = s :=
      List.takeWhile_eq_self_iff.mpr (by simpa using h)
    rw [htw, List.drop_length]

/-- A split at the first separator peels off the first field. -/
theorem pySplitN_split (sep : Char) (n : Nat) (xs ys : List Char)
    (h : ∀ c ∈ xs, c ≠ sep) :
    pySplitN sep (n + 1) (xs ++ sep :: ys) = xs :: pySplitN sep n ys := by
  simp only [pySplitN]
  rw [takeWhile_ne_append sep xs ys h, List.drop_left]

/-- Full split of a string with exactly two separators. -/
theorem pySplitAll_two_seps (sep : Char) (a b c : List Char)
    (ha : ∀ x ∈ a, x ≠ sep) (hb : ∀ x ∈ b, x ≠ sep) (hc : ∀ x ∈ c, x ≠ sep) :
    pySplitAll sep (a ++ sep :: (b ++ sep :: c)) = [a, b, c] := by
  unfold pySplitAll
  have hlen : (a ++ sep :: (b ++ sep :: c)).length
      = (a.length + b.length + c.length + 1) + 1 := by
    simp [List.length_append]
    omega
  rw [hlen, pySplitN_split sep _ a _ ha, pySplitN_split sep _ b c hb,
    pySplitN_no_sep sep _ c hc]

/-- Full split of a string with exactly one separator. -/
theorem pySplitAll_one_sep (sep : Char) (a b : List Char)
    (ha : ∀ x ∈ a, x ≠ sep) (hb : ∀ x ∈ b, x ≠ sep) :
    pySplitAll sep (a ++ sep :: b) = [a, b] := by
  unfold pySplitAll
  have hlen : (a ++ sep :: b).length = (a.length + b.length) + 1 := by
    simp [List.length_append]
    omega
  rw [hlen, pySplitN_split sep _ a b ha, pySplitN_no_sep sep _ b hb]

/-- A digit is not a colon. -/
theorem digit_ne_colon (c : Char) (h : isAsciiDigit c = true) : c ≠ ':' := by
  intro he
  rw [he] at h
  exact absurd h (by decide)

/-- A digit is not a dot. -/
theorem digit_ne_dot (c : Char) (h : isAsciiDigit c = true) : c ≠ '.' := by
  intro he
  rw [he] at h
  exact absurd h (by decide)

/-- Parsing the formatted timestamp recovers the four components and yields
`round(value * fps)`, for any nonnegative components. -/
theorem timestamp_to_frame_format (h m s cc : Int) (fps : ℚ)
    (hh : 0 ≤ h) (hm1 : 0 ≤ m) (hs1 : 0 ≤ s) (hc1 : 0 ≤ cc) :
    timestamp_to_frame (formatTimestamp h m s cc) fps
      = some (pyRound (((h : ℚ) * 3600 + (m : ℚ) * 60 + (s : ℚ) + (cc : ℚ) / 100) * fps)) := by
  have hdata : (formatTimestamp h m s cc).data
      = intToChars h ++ ':' :: (padTwo m ++ ':' :: (padTwo s ++ '.' :: padTwo cc)) := rfl
  have hdigH : ∀ x ∈ intToChars h, isAsciiDigit x = true := by
    rw [intToChars_nonneg _ hh]
    exact natToCharsAux_digits _ _ (by omega)
  have hsplit1 : pySplitAll ':'
      (intToChars h ++ ':' :: (padTwo m ++ ':' :: (padTwo s ++ '.' :: padTwo cc)))
      = [intToChars h, padTwo m, padTwo s ++ '.' :: padTwo cc] := by
    apply pySplitAll_two_seps
    · exact fun x hx => digit_ne_colon x (hdigH x hx)
    · exact fun x hx => digit_ne_colon x (padTwo_digits m hm1 x hx)
    · intro x hx
      rcases List.mem_append.mp hx with h1 | h1
      · exact digit_ne_colon x (padTwo_digits s hs1 x h1)
      · rcases List.mem_cons.mp h1 with rfl | h2
        · decide
        · exact digit_ne_colon x (padTwo_digits cc hc1 x h2)
  have hsplit2 : pySplitAll '.' (padTwo s ++ '.' :: padTwo cc) = [padTwo s, padTwo cc] := by
    apply pySplitAll_one_sep
    · exact fun x hx => digit_ne_dot x (padTwo_digits s hs1 x hx)
    · exact fun x hx => digit_ne_dot x (padTwo_digits cc hc1 x hx)
  unfold timestamp_to_frame
  rw [hdata, hsplit1]
  dsimp only
  rw [hsplit2]
  dsimp only
  rw [pyInt_intToChars h hh, pyInt_padTwo m hm1, pyInt_padTwo s hs1, pyInt_padTwo cc hc1]

/-- C9 counterexample: the claim quantifies over every fps > 0, but at
fps = 1024 the centisecond granularity of the timestamp loses more than
one frame: frame 3 renders as 0:00:00.00, which converts back to frame 0,
a difference of 3. -/
theorem c9_counterexample :
    frame_to_timestamp 3 1024 = some "0:00:00.00" ∧
    timestamp_to_frame "0:00:00.00" 1024 = some 0 ∧
    ((0 : Int) - 3).natAbs = 3 := ⟨by decide, by decide, by decide⟩

/-- C9 amended: for every frame ≥ 0 and every fps with 0 < fps < 300,
converting a frame to a timestamp and back at the same fps yields a frame
number differing from the original by at most 1.  (The timestamp stores
centiseconds, so its value is within 1/200 s of frame/fps; multiplying by
fps and rounding keeps the error below 2 frames exactly when fps < 300.) -/
theorem c9_round_trip (frame : Int) (fps : ℚ) (h0 : 0 ≤ frame) (h1 : 0 < fps)
    (h2 : fps < 300) :
    ∃ ts k, frame_to_timestamp frame fps = some ts ∧
      timestamp_to_frame ts fps = some k ∧ (k - frame).natAbs ≤ 1 := by
  have hf0 : fps ≠ 0 := ne_of_gt h1
  obtain ⟨hA, hB1, hB2, hC1, hC2, hD1, hD2, hE⟩ := frameHMSC_spec frame fps h0 h1
  refine ⟨formatTimestamp (frameHMSC frame fps).1 (frameHMSC frame fps).2.1
      (frameHMSC frame fps).2.2.1 (frameHMSC frame fps).2.2.2,
    pyRound ((((frameHMSC frame fps).1 : ℚ) * 3600 + ((frameHMSC frame fps).2.1 : ℚ) * 60 +
      ((frameHMSC frame fps).2.2.1 : ℚ) + ((frameHMSC frame fps).2.2.2 : ℚ) / 100) * fps),
    ?_, ?_, ?_⟩
  · unfold frame_to_timestamp
    rw [if_neg hf0]
  · exact timestamp_to_frame_format _ _ _ _ fps hA hB1 hC1 hD1
  · set v := ((frameHMSC frame fps).1 : ℚ) * 3600 + ((frameHMSC frame fps).2.1 : ℚ) * 60 +
      ((frameHMSC frame fps).2.2.1 : ℚ) + ((frameHMSC frame fps).2.2.2 : ℚ) / 100 with hv
    have hE2 : |v - (frame : ℚ) / fps| ≤ 1 / 200 := hE
    have h3 : |(pyRound (v * fps) : ℚ) - v * fps| ≤ 1 / 2 := pyRound_sub_abs (v * fps)
    have h4 : (frame : ℚ) = ((frame : ℚ) / fps) * fps := (div_mul_cancel₀ _ hf0).symm
    have h5 : |v * fps - (frame : ℚ)| ≤ fps / 200 := by
      rw [h4, ← sub_mul, abs_mul, abs_of_pos h1]
      calc |v - (frame : ℚ) / fps| * fps ≤ (1 / 200) * fps :=
            mul_le_mul_of_nonneg_right hE2 h1.le
        _ = fps / 200 := by ring
    have h6 : |(pyRound (v * fps) : ℚ) - (frame : ℚ)| < 2 := by
      have htri := abs_sub_le ((pyRound (v * fps) : ℚ)) (v * fps) ((frame : ℚ))
      have hlt : fps / 200 < 3 / 2 := by linarith
      linarith
    have h7 : ((pyRound (v * fps) - frame : Int) : ℚ) = (pyRound (v * fps) : ℚ) - frame := by
      push_cast
      ring
    have h8 : |((pyRound (v * fps) - frame : Int) : ℚ)| < 2 := by
      rw [h7]
      exact h6
    rw [← Int.cast_abs] at h8
    have h9 : |pyRound (v * fps) - frame| < 2 := by exact_mod_cast h8
    have h10 := Int.abs_eq_natAbs (pyRound (v * fps) - frame)
    omega

/-- Witness for c9_round_trip at frame 7, fps 3. -/
theorem c9_round_trip_witness :
    (0 : Int) ≤ 7 ∧ (0 : ℚ) < 3 ∧ (3 : ℚ) < 300 ∧
    (∃ ts k, frame_to_timestamp 7 3 = some ts ∧
      timestamp_to_frame ts 3 = some k ∧ (k - 7).natAbs ≤ 1) :=
  ⟨by decide, by decide, by decide,
    c9_round_trip 7 3 (by decide) (by decide) (by decide)⟩
